
import Mathlib

/-!
# TbdLib: `include/tbd/config.h`

A shallow embedding of the class `tbd::Config` (a `std::map<std::string,std::string>`
with typed accessors and a line-oriented reader and writer) and proofs about it.

Conventions of the embedding.

* A `std::string`, a line and a file content are lists of characters (`Str`); one
  `Char` stands for one `char` of the program. Character classification follows
  the classic "C" locale.
* The map `parameters` is the list of its entries in iteration order, that is in
  strictly ascending key order (`Config.Ordered`); the operations of `std::map`
  search it with the comparison `strLt` (`std::less<std::string>`).
* A function that may throw returns an `Except` value next to the state it leaves.
* `size_t` arithmetic is arithmetic modulo `2 ^ 64`.
-/

namespace tbd

/-- A `std::string`: a sequence of characters. -/
abbrev Str := List Char

/-! ## Characters and the Boost string algorithms used by `Config::read` -/

/-- The classification `std::isspace` of the classic locale (used by `boost::trim`):
space, and the control characters `\t`, `\n`, `\v`, `\f`, `\r`. -/
def isspace (c : Char) : Bool :=
  decide (c.toNat = 32) || (decide (9 ≤ c.toNat) && decide (c.toNat ≤ 13))

/-- The mapping `std::toupper` of the classic locale (used by `boost::to_upper`). -/
def toupper (c : Char) : Char :=
  if 97 ≤ c.toNat ∧ c.toNat ≤ 122 then Char.ofNat (c.toNat - 32) else c

/-- The algorithm `boost::trim_left`. -/
def trim_left (s : Str) : Str := s.dropWhile isspace

/-- The algorithm `boost::trim_right`. -/
def trim_right (s : Str) : Str := s.rdropWhile isspace

/-- The algorithm `boost::trim`: `trim_right_if` followed by `trim_left_if`. -/
def trim (s : Str) : Str := trim_left (trim_right s)

/-- The algorithm `boost::to_upper`. -/
def to_upper (s : Str) : Str := s.map toupper

/-- The token iteration behind `boost::split` with `token_compress_on`: the tokens
are the stretches between maximal runs of delimiters. The flag tells that the
previous character was a delimiter, so that the present run is already open. -/
def splitFrom (isDelim : Char → Bool) : Bool → Str → List Str
  | _, [] => [[]]
  | inRun, c :: cs =>
    if isDelim c then
      if inRun then splitFrom isDelim true cs else [] :: splitFrom isDelim true cs
    else
      match splitFrom isDelim false cs with
      | t :: ts => (c :: t) :: ts
      | [] => [[c]]

/-- The call `boost::split(splitVec, l, boost::is_any_of("="), boost::token_compress_on)`.
For the empty text the result here is one empty token (old versions of the library
give no token at all); `Config::read` only asks whether there are fewer than two. -/
def split (l : Str) : List Str := splitFrom (fun c => decide (c = '=')) false l

/-- The value `std::string::npos`, the largest `size_t`. -/
def npos : Nat := 2 ^ 64 - 1

/-- The member `std::string::find` for a one-character pattern, from position 0:
the index of the first occurrence, or `npos`. -/
def find (s : Str) (c : Char) : Nat :=
  match s.findIdx? (fun d => decide (d = c)) with
  | some p => p
  | none => npos

/-- The member `std::string::substr(0, n)` (position 0 is always in range). -/
def substr0 (s : Str) (n : Nat) : Str := s.take n

/-- Subtraction of one in `size_t`. -/
def size_t_pred (p : Nat) : Nat := (p + 2 ^ 64 - 1) % 2 ^ 64

/-- The construction `std::string l(line)` from a character buffer: the characters up
to the first NUL. -/
def cstr (buf : Str) : Str := buf.takeWhile (fun c => decide (c ≠ Char.ofNat 0))

/-! ## `boost::lexical_cast` -/

/-- The exceptions the embedded code can raise. -/
inductive Exception where
  | bad_lexical_cast
  deriving DecidableEq, Repr

/-- The classification `isdigit` of decimal digits. -/
def isdigit (c : Char) : Bool := decide (48 ≤ c.toNat) && decide (c.toNat ≤ 57)

/-- The number written by a sequence of decimal digits. -/
def digitsValue (s : Str) : Nat := s.foldl (fun acc c => 10 * acc + (c.toNat - 48)) 0

/-- The largest `int` (32 bits). -/
def INT_MAX : Int := 2 ^ 31 - 1

/-- The smallest `int` (32 bits). -/
def INT_MIN : Int := -(2 ^ 31)

/-- The conversion `boost::lexical_cast<int>(std::string)` of the Boost library: the
whole text must be an optional sign followed by at least one decimal digit and the
number must fit an `int`; otherwise `bad_lexical_cast` is thrown. -/
def lexical_cast_int (s : Str) : Except Exception Int :=
  let signed : Bool × Str :=
    match s with
    | '-' :: r => (true, r)
    | '+' :: r => (false, r)
    | _ => (false, s)
  let body := signed.2
  if body.isEmpty || !(body.all isdigit) then Except.error Exception.bad_lexical_cast
  else
    let n : Int := if signed.1 then -(digitsValue body : Int) else (digitsValue body : Int)
    if INT_MIN ≤ n ∧ n ≤ INT_MAX then Except.ok n else Except.error Exception.bad_lexical_cast

/-- The conversion `boost::lexical_cast<std::string>(int)`: the decimal text, with a
leading minus sign for a negative number. -/
def lexical_cast_string (n : Int) : Str :=
  if n < 0 then '-' :: Nat.toDigits 10 n.natAbs else Nat.toDigits 10 n.toNat

/-- The conversion `boost::lexical_cast<std::string>(std::string)`: the text itself. -/
def lexical_cast_str (s : Str) : Except Exception Str := Except.ok s

/-! ## The map `parameters` -/

/-- The comparison `std::less<std::string>`: lexicographic order on the characters. -/
def strLt : Str → Str → Bool
  | [], [] => false
  | [], _ :: _ => true
  | _ :: _, [] => false
  | a :: as, b :: bs => if a < b then true else if b < a then false else strLt as bs

/-- The member `parameters` of `Config`: the entries of the map in iteration order. -/
abbrev Store := List (Str × Str)

namespace Config

/-- The invariant of `std::map`: the keys are strictly ascending. -/
def Ordered (s : Store) : Prop := s.Pairwise (fun a b => strLt a.1 b.1 = true)

/-- The member `std::map::find`, giving the mapped value when the key is present. -/
def lookup (k : Str) : Store → Option Str
  | [] => none
  | (k1, v1) :: rest =>
    if strLt k k1 then none
    else if strLt k1 k then lookup k rest
    else some v1

/-- The member `std::map::insert`: adds the pair unless the key is present. -/
def mapInsert (k v : Str) : Store → Store
  | [] => [(k, v)]
  | (k1, v1) :: rest =>
    if strLt k k1 then (k, v) :: (k1, v1) :: rest
    else if strLt k1 k then (k1, v1) :: mapInsert k v rest
    else (k1, v1) :: rest

/-- The member `std::map::operator[]` as far as it changes the map: an absent key is
added with the empty string. -/
def subscript (k : Str) (s : Store) : Store := mapInsert k [] s

/-- Assignment through the reference that `operator[]` returns. -/
def assign (k v : Str) : Store → Store
  | [] => []
  | (k1, v1) :: rest =>
    if strLt k k1 then (k1, v1) :: rest
    else if strLt k1 k then (k1, v1) :: assign k v rest
    else (k1, v) :: rest

/-- The value read through the reference that `operator[]` returns. -/
def valueAt (k : Str) (s : Store) : Str := (lookup k s).getD []

/-- The member `std::map::count`. -/
def count (k : Str) (s : Store) : Nat := if (lookup k s).isSome then 1 else 0

/-- The member `Config::exists`. -/
def «exists» (s : Store) (key : Str) : Bool := decide (count key s ≠ 0)

/-- The overload `Config::set(std::string&, std::string&)`: `parameters[key] = value`. -/
def set (s : Store) (key value : Str) : Store := assign key value (subscript key s)

/-- The member `Config::set<int>`: `parameters[key] = lexical_cast<std::string>(value)`. -/
def set_int (s : Store) (key : Str) (value : Int) : Store :=
  assign key (lexical_cast_string value) (subscript key s)

/-- The member `Config::get<int>`: `lexical_cast<int>(parameters[key])`. The result is
the value or the exception raised, together with the map as `operator[]` leaves it. -/
def get_int (s : Store) (key : Str) : Except Exception Int × Store :=
  let s1 := subscript key s
  (lexical_cast_int (valueAt key s1), s1)

/-- The member `Config::get<std::string>`. -/
def get_string (s : Store) (key : Str) : Except Exception Str × Store :=
  let s1 := subscript key s
  (lexical_cast_str (valueAt key s1), s1)

/-! ## `Config::read` -/

/-- The call `is.getline(line, n)` on the unread input, with `room = n - 1` places
left in the buffer. The result is the buffer, the input left unread and whether the
stream is still good. The tests come in the order of the library: end of input
(sets `eofbit`), then the delimiter (taken from the input, not stored), then the
full buffer (sets `failbit`). -/
def getlineAux : Nat → Str → Str × Str × Bool
  | _, [] => ([], [], false)
  | 0, c :: cs => if c = '\n' then ([], cs, true) else ([], c :: cs, false)
  | room + 1, c :: cs =>
    if c = '\n' then ([], cs, true)
    else
      let r := getlineAux room cs
      (c :: r.1, r.2.1, r.2.2)

/-- The call `is.getline(line, sizeof(line))` with `char line[1024]`. -/
def getline (input : Str) : Str × Str × Bool := getlineAux 1023 input

/-- The comment removal of `Config::read`:
`commentPos = value.find("#"); if (commentPos != npos) value = value.substr(0, commentPos-1)`. -/
def removeComment (value : Str) : Str :=
  let commentPos := find value '#'
  if commentPos ≠ npos then substr0 value (size_t_pred commentPos) else value

/-- The body of the loop of `Config::read` from `std::string l(line)` up to the two
tests on the key: the pair to store, or `none` when the line is skipped. -/
def parseLine (line : Str) : Option (Str × Str) :=
  let l := trim (cstr line)
  match split l with
  | s0 :: s1 :: _ =>
    let key := to_upper (trim s0)
    let value := trim (removeComment s1)
    match key with
    | [] => none
    | c :: _ => if c.toNat < 65 ∨ c.toNat > 90 then none else some (key, value)
  | _ => none

/-- One turn of the loop body of `Config::read` after `getline`: a line that passes
is stored with `parameters.insert` followed by `set`. -/
def processLine (s : Store) (line : Str) : Store :=
  match parseLine line with
  | some (key, value) => set (mapInsert key value s) key value
  | none => s

/-- The loop `while (is.good()) ...` of `Config::read`, entered with a good stream.
Every turn that leaves the stream good has taken a delimiter from the input, so
`input.length + 1` turns always suffice (`readLoop_fuel`). -/
def readLoop : Nat → Str → Store → Store
  | 0, _, s => s
  | fuel + 1, input, s =>
    let r := getline input
    let s1 := processLine s r.1
    if r.2.2 then readLoop fuel r.2.1 s1 else s1

/-- The member `Config::read`. The file is `none` when it cannot be opened: the stream
is then not good and the loop is not entered. Nothing in the body throws. -/
def read (s : Store) : Option Str → Store
  | none => s
  | some content => readLoop (content.length + 1) content s

/-- The lines that the loop of `Config::read` takes from the input, in order. -/
def getlines : Nat → Str → List Str
  | 0, _ => []
  | fuel + 1, input =>
    let r := getline input
    if r.2.2 then r.1 :: getlines fuel r.2.1 else [r.1]

/-! ## `Config::write` and `operator<<` -/

/-- The friend `operator<<`: for every entry in iteration order the key, `" = "`, the
value and a newline. -/
def output : Store → Str
  | [] => []
  | (k, v) :: rest => k ++ (" = ".toList ++ (v ++ ('\n' :: output rest)))

/-- The member `Config::write`, as the content of the file afterwards: the file is
truncated and receives `*this`. -/
def write (s : Store) : Str := output s

/-! ## Notions used to state and prove the properties -/

/-- Storing a pair in the ordered list of entries: the new pair takes the place its key
has in the order, and replaces the value of a key that is present. The two writes of
`Config::read` and the write of `Config::set` amount to it (`set_eq_put`,
`set_mapInsert`). -/
def put (k v : Str) : Store → Store
  | [] => [(k, v)]
  | (k1, v1) :: rest =>
    if strLt k k1 then (k, v) :: (k1, v1) :: rest
    else if strLt k1 k then (k1, v1) :: put k v rest
    else (k1, v) :: rest

/-- The lines that `Config::read` takes from a file content, with the fuel that
always suffices. -/
def linesRead (content : Str) : List Str := getlines (content.length + 1) content

/-- The lines of a file content: the stretches between newline characters (after a
final newline comes an empty last line). -/
def fileLines : Str → List Str
  | [] => [[]]
  | c :: cs =>
    if c = '\n' then [] :: fileLines cs
    else
      match fileLines cs with
      | l :: ls => (c :: l) :: ls
      | [] => [[c]]

/-- The text of the line that `operator<<` writes for an entry, without the newline. -/
def lineOf (e : Str × Str) : Str := e.1 ++ (" = ".toList ++ e.2)

end Config

/-- The key test of `Config::read`: the key is not empty and `key[0]` lies in `A`-`Z`. -/
def startsUpper (k : Str) : Bool :=
  match k with
  | [] => false
  | c :: _ => decide (65 ≤ c.toNat) && decide (c.toNat ≤ 90)

/-- A text that `boost::trim` leaves unchanged. -/
def Trimmed (s : Str) : Prop := trim s = s

namespace Config

/-- A text without `=`, newline, NUL and `#`. -/
def Plain (s : Str) : Prop :=
  ∀ c ∈ s, c ≠ '=' ∧ c ≠ '\n' ∧ c ≠ Char.ofNat 0 ∧ c ≠ '#'

/-- The shape of the entries that `Config::read` stores from a file without `#`: the
key is trimmed, in upper case and passes the key test, the value is trimmed, and
neither holds a `=`, a newline, a NUL or a `#`. -/
def EntryOK (e : Str × Str) : Prop :=
  Trimmed e.1 ∧ to_upper e.1 = e.1 ∧ startsUpper e.1 = true ∧ Plain e.1
    ∧ Trimmed e.2 ∧ Plain e.2

/-- The property of a store that every key present begins with a letter `A`-`Z`. -/
def KeysUpper (s : Store) : Prop := ∀ e ∈ s, startsUpper e.1 = true

/-- The states that the member `parameters` of a `Config` object can take: it is empty
after construction, and changes through `read` (also called by the constructor),
through `set` (the template `set<T>` stores the text of its value in the same way) and
through `operator[]` in `get<T>`. -/
inductive Reachable : Store → Prop
  | empty : Reachable []
  | read (s : Store) (file : Option Str) : Reachable s → Reachable (tbd.Config.read s file)
  | set (s : Store) (key value : Str) : Reachable s → Reachable (tbd.Config.set s key value)
  | get (s : Store) (key : Str) : Reachable s → Reachable (tbd.Config.subscript key s)

/-- The lines of a file up to and including the first one that is longer than the
buffer of `Config::read` (1023 characters). -/
def linesUpToLong : List Str → List Str
  | [] => []
  | l :: ls => if l.length ≤ 1023 then l :: linesUpToLong ls else [l]

/-- The stream `std::ifstream is` of `Config::read`: the input not yet read and the
result of `is.good()`. -/
structure ifstream where
  input : Str
  good : Bool

/-- The call `is.open(filename.c_str())`: the stream is good and holds the content when
the file can be opened (`some content`), and is not good otherwise. -/
def ifstream_open : Option Str → ifstream
  | some content => ifstream.mk content true
  | none => ifstream.mk [] false

/-- The loop of `Config::read` with the stream state explicit:
`while (is.good()) ...` tests the stream before every turn, the first included. -/
def readStream : Nat → ifstream → Store → Store
  | 0, _, s => s
  | fuel + 1, is, s =>
    if is.good then
      let r := getline is.input
      readStream fuel (ifstream.mk r.2.1 r.2.2) (processLine s r.1)
    else s

end Config

/-- Modelled from the spec: the members of `ConfigurableObject` that the macros
`TBD_PROPERTY(Config*,config)` and `TBD_PROPERTY_RO(std::string,objName)` of
`tbd/property.h` (not among the sources) declare. The pointer `config_` is `none` when
it is null and otherwise holds the `parameters` of the `Config` it points to; the
object does not own that `Config`. -/
structure ConfigurableObject where
  config_ : Option Store
  objName_ : Str

/-- Modelled from the spec: the getter `config()` declared by
`TBD_PROPERTY(Config*,config)`, which returns the pointer `config_`. -/
def ConfigurableObject.config (o : ConfigurableObject) : Option Store := o.config_

/-- The read accessor that `TBD_PROPERTY_CFG(int,name,param_name,def_value)` generates:
`if (config()) { if (config()->exists(param_name)) return config()->get<int>(param_name);
else config()->set<int>(string(param_name),def_value); } return def_value;`.
The result is the value returned or the exception raised, and the object with the
attached store as the call leaves it. -/
def TBD_PROPERTY_CFG (param_name : Str) (def_value : Int) (o : ConfigurableObject) :
    Except Exception Int × ConfigurableObject :=
  match o.config with
  | some s =>
    if Config.«exists» s param_name then
      ((Config.get_int s param_name).1,
        ConfigurableObject.mk (some (Config.get_int s param_name).2) o.objName_)
    else
      (Except.ok def_value,
        ConfigurableObject.mk (some (Config.set_int s param_name def_value)) o.objName_)
  | none => (Except.ok def_value, o)

end tbd

/-! # Proofs -/

namespace tbd

/-! ### The order of the keys -/

theorem strLt_irrefl (a : Str) : strLt a a = false := by
  induction a with
  | nil => rfl
  | cons c cs ih => simp [strLt, ih]

theorem strLt_asymm : ∀ (a b : Str), strLt a b = true → strLt b a = false
  | [], [], h => by simp [strLt] at h
  | [], _ :: _, _ => by simp [strLt]
  | _ :: _, [], h => by simp [strLt] at h
  | a :: as, b :: bs, h => by
    simp only [strLt] at h ⊢
    by_cases h1 : a < b
    · have h2 : ¬ b < a := lt_asymm h1
      simp [h1, h2]
    · by_cases h2 : b < a
      · simp [h1, h2] at h
      · simp only [h1, h2, if_false] at h ⊢
        exact strLt_asymm as bs h

theorem strLt_trans : ∀ (a b c : Str), strLt a b = true → strLt b c = true → strLt a c = true
  | [], [], _, h, _ => by simp [strLt] at h
  | [], _ :: _, [], _, h => by simp [strLt] at h
  | [], _ :: _, _ :: _, _, _ => by simp [strLt]
  | _ :: _, [], _, h, _ => by simp [strLt] at h
  | _ :: _, _ :: _, [], _, h => by simp [strLt] at h
  | a :: as, b :: bs, c :: cs, h1, h2 => by
    simp only [strLt] at h1 h2 ⊢
    by_cases hab : a < b
    · by_cases hbc : b < c
      · simp [lt_trans hab hbc]
      · by_cases hcb : c < b
        · simp [hbc, hcb] at h2
        · have hbc' : b = c := le_antisymm (not_lt.mp hcb) (not_lt.mp hbc)
          subst hbc'
          simp [hab]
    · by_cases hba : b < a
      · simp [hab, hba] at h1
      · have hab' : a = b := le_antisymm (not_lt.mp hba) (not_lt.mp hab)
        subst hab'
        simp only [hab, if_false] at h1
        by_cases hac : a < c
        · simp [hac]
        · by_cases hca : c < a
          · simp [hac, hca] at h2
          · simp only [hac, hca, if_false] at h2 ⊢
            exact strLt_trans as bs cs h1 h2

theorem strLt_total : ∀ (a b : Str), strLt a b = false → strLt b a = false → a = b
  | [], [], _, _ => rfl
  | [], _ :: _, h, _ => by simp [strLt] at h
  | _ :: _, [], _, h => by simp [strLt] at h
  | a :: as, b :: bs, h1, h2 => by
    simp only [strLt] at h1 h2
    by_cases hab : a < b
    · simp [hab] at h1
    · by_cases hba : b < a
      · simp [hba] at h2
      · simp only [hab, hba, if_false] at h1 h2
        have e : a = b := le_antisymm (not_lt.mp hba) (not_lt.mp hab)
        rw [e, strLt_total as bs h1 h2]

end tbd

namespace tbd

namespace Config

theorem assign_mapInsert (k v w : Str) (s : Store) :
    assign k v (mapInsert k w s) = put k v s := by
  induction s with
  | nil => simp [mapInsert, assign, put, strLt_irrefl]
  | cons e rest ih =>
    obtain ⟨k1, v1⟩ := e
    by_cases h1 : strLt k k1 = true
    · simp [mapInsert, assign, put, h1, strLt_irrefl]
    · by_cases h2 : strLt k1 k = true
      · simp [mapInsert, assign, put, h1, h2, ih]
      · simp [mapInsert, assign, put, h1, h2]

theorem mapInsert_mapInsert (k v w : Str) (s : Store) :
    mapInsert k w (mapInsert k v s) = mapInsert k v s := by
  induction s with
  | nil => simp [mapInsert, strLt_irrefl]
  | cons e rest ih =>
    obtain ⟨k1, v1⟩ := e
    by_cases h1 : strLt k k1 = true
    · simp [mapInsert, h1, strLt_irrefl]
    · by_cases h2 : strLt k1 k = true
      · simp [mapInsert, h1, h2, ih]
      · simp [mapInsert, h1, h2]

theorem set_eq_put (s : Store) (k v : Str) : set s k v = put k v s := by
  simp [set, subscript, assign_mapInsert]

theorem set_int_eq_put (s : Store) (k : Str) (n : Int) :
    set_int s k n = put k (lexical_cast_string n) s := by
  simp [set_int, subscript, assign_mapInsert]

theorem set_mapInsert (s : Store) (k v : Str) : set (mapInsert k v s) k v = put k v s := by
  simp [set, subscript, mapInsert_mapInsert, assign_mapInsert]

theorem processLine_eq (s : Store) (line : Str) :
    processLine s line = match parseLine line with
      | some kv => put kv.1 kv.2 s
      | none => s := by
  unfold processLine
  cases h : parseLine line with
  | none => rfl
  | some kv => obtain ⟨k, v⟩ := kv; simp [set_mapInsert]

theorem lookup_put_self (k v : Str) (s : Store) : lookup k (put k v s) = some v := by
  induction s with
  | nil => simp [put, lookup, strLt_irrefl]
  | cons e rest ih =>
    obtain ⟨k1, v1⟩ := e
    by_cases h1 : strLt k k1 = true
    · simp [put, lookup, h1, strLt_irrefl]
    · by_cases h2 : strLt k1 k = true
      · simp [put, lookup, h1, h2, ih]
      · simp [put, lookup, h1, h2]

theorem lookup_put_ne (k v j : Str) (s : Store) (hne : j ≠ k) :
    lookup j (put k v s) = lookup j s := by
  induction s with
  | nil =>
    by_cases h1 : strLt j k = true
    · simp [put, lookup, h1]
    · by_cases h2 : strLt k j = true
      · simp [put, lookup, h1, h2]
      · exact absurd (strLt_total j k (by simpa using h1) (by simpa using h2)) hne
  | cons e rest ih =>
    obtain ⟨k1, v1⟩ := e
    by_cases h1 : strLt k k1 = true
    · -- the new entry goes in front
      simp only [put, h1, if_true]
      by_cases h3 : strLt j k = true
      · have h4 : strLt j k1 = true := strLt_trans j k k1 h3 h1
        simp [lookup, h3, h4]
      · by_cases h5 : strLt k j = true
        · simp [lookup, h3, h5]
        · exact absurd (strLt_total j k (by simpa using h3) (by simpa using h5)) hne
    · by_cases h2 : strLt k1 k = true
      · simp only [put, h1, h2, if_true, if_false]
        simp only [Bool.false_eq_true, if_false]
        by_cases h3 : strLt j k1 = true
        · simp [lookup, h3]
        · by_cases h5 : strLt k1 j = true
          · simp [lookup, h3, h5, ih]
          · simp [lookup, h3, h5]
      · have e : k = k1 := strLt_total k k1 (by simpa using h1) (by simpa using h2)
        subst e
        simp only [put, h1, if_false, Bool.false_eq_true]
        by_cases h3 : strLt j k = true
        · simp [lookup, h3]
        · by_cases h5 : strLt k j = true
          · simp [lookup, h3, h5]
          · exact absurd (strLt_total j k (by simpa using h3) (by simpa using h5)) hne

theorem lookup_mapInsert_self (k w : Str) (s : Store) :
    lookup k (mapInsert k w s) = some ((lookup k s).getD w) := by
  induction s with
  | nil => simp [mapInsert, lookup, strLt_irrefl]
  | cons e rest ih =>
    obtain ⟨k1, v1⟩ := e
    by_cases h1 : strLt k k1 = true
    · simp [mapInsert, lookup, h1, strLt_irrefl]
    · by_cases h2 : strLt k1 k = true
      · simp [mapInsert, lookup, h1, h2, ih]
      · simp [mapInsert, lookup, h1, h2]

theorem mem_put (k v : Str) (s : Store) (e : Str × Str) (h : e ∈ put k v s) :
    e = (k, v) ∨ e ∈ s := by
  induction s with
  | nil => simpa [put] using h
  | cons e1 rest ih =>
    obtain ⟨k1, v1⟩ := e1
    by_cases h1 : strLt k k1 = true
    · simp only [put, h1, if_true, List.mem_cons] at h
      simpa using h
    · by_cases h2 : strLt k1 k = true
      · simp only [put, h1, h2, if_true, if_false, List.mem_cons, Bool.false_eq_true] at h
        rcases h with h | h
        · exact Or.inr (by simp [h])
        · rcases ih h with h | h
          · exact Or.inl h
          · exact Or.inr (by simp [h])
      · have e : k = k1 := strLt_total k k1 (by simpa using h1) (by simpa using h2)
        subst e
        simp only [put, h1, if_false, List.mem_cons, Bool.false_eq_true] at h
        rcases h with h | h
        · exact Or.inl h
        · exact Or.inr (by simp [h])

theorem put_ordered (k v : Str) (s : Store) (hs : Ordered s) : Ordered (put k v s) := by
  induction s with
  | nil => simp [put, Ordered]
  | cons e1 rest ih =>
    obtain ⟨k1, v1⟩ := e1
    have hs1 := hs
    unfold Ordered at hs
    rw [List.pairwise_cons] at hs
    obtain ⟨hhd, htl⟩ := hs
    by_cases h1 : strLt k k1 = true
    · simp only [put, h1, if_true]
      unfold Ordered
      rw [List.pairwise_cons]
      refine ⟨?_, hs1⟩
      intro a ha
      rcases List.mem_cons.mp ha with ha | ha
      · rw [ha]; exact h1
      · exact strLt_trans k k1 a.1 h1 (hhd a ha)
    · by_cases h2 : strLt k1 k = true
      · simp only [put, h1, h2, if_true, if_false, Bool.false_eq_true]
        unfold Ordered
        rw [List.pairwise_cons]
        refine ⟨?_, ih htl⟩
        intro a ha
        rcases mem_put k v rest a ha with ha | ha
        · rw [ha]; exact h2
        · exact hhd a ha
      · simp only [put, h1, h2, if_false, Bool.false_eq_true]
        unfold Ordered
        rw [List.pairwise_cons]
        exact ⟨hhd, htl⟩

theorem put_append_last (k v : Str) (s : Store) (hs : Ordered (s ++ [(k, v)])) :
    put k v s = s ++ [(k, v)] := by
  induction s with
  | nil => simp [put]
  | cons e1 rest ih =>
    obtain ⟨k1, v1⟩ := e1
    unfold Ordered at hs
    rw [List.cons_append, List.pairwise_cons] at hs
    obtain ⟨hhd, htl⟩ := hs
    have h2 : strLt k1 k = true := hhd (k, v) (by simp)
    have h1 : strLt k k1 = false := strLt_asymm k1 k h2
    simp [put, h1, h2, ih htl]

theorem foldl_put_ordered (s acc : Store) (h : Ordered (acc ++ s)) :
    s.foldl (fun t e => put e.1 e.2 t) acc = acc ++ s := by
  induction s generalizing acc with
  | nil => simp
  | cons e rest ih =>
    have h1 : Ordered (acc ++ [e]) := by
      unfold Ordered at h ⊢
      have : acc ++ e :: rest = (acc ++ [e]) ++ rest := by simp
      rw [this] at h
      exact (List.pairwise_append.mp h).1
    have h2 : put e.1 e.2 acc = acc ++ [e] := put_append_last e.1 e.2 acc h1
    rw [List.foldl_cons, h2, ih (acc ++ [e]) (by simpa using h)]
    simp

theorem getlineAux_good_lt (room : Nat) (input : Str)
    (h : (getlineAux room input).2.2 = true) :
    (getlineAux room input).2.1.length < input.length := by
  induction input generalizing room with
  | nil => simp [getlineAux] at h
  | cons c cs ih =>
    cases room with
    | zero =>
      by_cases hc : c = '\n'
      · simp [getlineAux, hc]
      · simp [getlineAux, hc] at h
    | succ room =>
      by_cases hc : c = '\n'
      · simp [getlineAux, hc]
      · simp only [getlineAux, hc, if_false] at h ⊢
        have := ih room h
        simp only [List.length_cons]
        omega

theorem readLoop_eq_foldl (fuel : Nat) (input : Str) (s : Store) :
    readLoop fuel input s = (getlines fuel input).foldl processLine s := by
  induction fuel generalizing input s with
  | zero => simp [readLoop, getlines]
  | succ fuel ih =>
    simp only [readLoop, getlines]
    by_cases hg : (getline input).2.2 = true
    · simp [hg, ih]
    · simp [hg]

theorem getlines_fuel (fuel1 fuel2 : Nat) (input : Str)
    (h1 : input.length < fuel1) (h2 : input.length < fuel2) :
    getlines fuel1 input = getlines fuel2 input := by
  induction fuel1 generalizing fuel2 input with
  | zero => omega
  | succ fuel1 ih =>
    cases fuel2 with
    | zero => omega
    | succ fuel2 =>
      simp only [getlines]
      by_cases hg : (getline input).2.2 = true
      · have hlt := getlineAux_good_lt 1023 input hg
        simp only [hg, if_true]
        rw [ih fuel2 (getline input).2.1 (by unfold getline; omega) (by unfold getline; omega)]
      · simp [hg]

theorem getlines_succ (fuel : Nat) (input : Str) :
    getlines (fuel + 1) input =
      if (getline input).2.2 then (getline input).1 :: getlines fuel (getline input).2.1
      else [(getline input).1] := rfl

theorem linesRead_eq (input : Str) :
    linesRead input =
      if (getline input).2.2 then (getline input).1 :: linesRead (getline input).2.1
      else [(getline input).1] := by
  unfold linesRead
  rw [getlines_succ]
  by_cases hg : (getline input).2.2 = true
  · have hlt := getlineAux_good_lt 1023 input hg
    simp only [hg, if_true]
    rw [getlines_fuel input.length ((getline input).2.1.length + 1) _
      (by unfold getline; omega) (by omega)]
  · simp [hg]

theorem read_eq_foldl (s : Store) (content : Str) :
    read s (some content) = (linesRead content).foldl processLine s := by
  simp [read, linesRead, readLoop_eq_foldl]

/-- The loop of `Config::read` never runs out of fuel: every larger amount gives the
result of `read`. -/
theorem readLoop_fuel (fuel : Nat) (input : Str) (s : Store) (h : input.length < fuel) :
    readLoop fuel input s = read s (some input) := by
  rw [read_eq_foldl, readLoop_eq_foldl, linesRead,
    getlines_fuel fuel (input.length + 1) input h (by omega)]

theorem getlineAux_newline (room : Nat) (line rest : Str)
    (hnl : '\n' ∉ line) (hlen : line.length ≤ room) :
    getlineAux room (line ++ '\n' :: rest) = (line, rest, true) := by
  induction line generalizing room with
  | nil => cases room <;> simp [getlineAux]
  | cons c cs ih =>
    have hc : c ≠ '\n' := fun h => hnl (by simp [h])
    have hcs : '\n' ∉ cs := fun h => hnl (by simp [h])
    cases room with
    | zero => simp at hlen
    | succ room =>
      rw [List.cons_append]
      simp only [getlineAux, hc, if_false]
      rw [ih room hcs (by simpa using hlen)]

theorem getlineAux_noNewline (room : Nat) (line : Str) (hnl : '\n' ∉ line) :
    getlineAux room line = (line.take room, line.drop room, false) := by
  induction line generalizing room with
  | nil => cases room <;> simp [getlineAux]
  | cons c cs ih =>
    have hc : c ≠ '\n' := fun h => hnl (by simp [h])
    have hcs : '\n' ∉ cs := fun h => hnl (by simp [h])
    cases room with
    | zero => simp [getlineAux, hc]
    | succ room =>
      simp only [getlineAux, hc, if_false]
      rw [ih room hcs]
      simp

theorem getlineAux_long (room : Nat) (line rest : Str)
    (hnl : '\n' ∉ line) (hlen : room < line.length) :
    getlineAux room (line ++ '\n' :: rest) = (line.take room, line.drop room ++ '\n' :: rest, false) := by
  induction line generalizing room with
  | nil => simp at hlen
  | cons c cs ih =>
    have hc : c ≠ '\n' := fun h => hnl (by simp [h])
    have hcs : '\n' ∉ cs := fun h => hnl (by simp [h])
    cases room with
    | zero => simp [getlineAux, hc]
    | succ room =>
      rw [List.cons_append]
      simp only [getlineAux, hc, if_false]
      rw [ih room hcs (by simpa using hlen)]
      simp

theorem getlineAux_record (room : Nat) (input : Str) :
    '\n' ∉ (getlineAux room input).1 ∧ (getlineAux room input).1.length ≤ room
      ∧ (∀ c ∈ (getlineAux room input).1, c ∈ input)
      ∧ (∀ c ∈ (getlineAux room input).2.1, c ∈ input) := by
  induction input generalizing room with
  | nil => simp [getlineAux]
  | cons c cs ih =>
    cases room with
    | zero =>
      by_cases hc : c = '\n'
      · simp [getlineAux, hc]
        intro x hx; exact Or.inr hx
      · simp [getlineAux, hc]
    | succ room =>
      by_cases hc : c = '\n'
      · simp [getlineAux, hc]
        intro x hx; exact Or.inr hx
      · obtain ⟨h1, h2, h3, h4⟩ := ih room
        simp only [getlineAux, hc, if_false]
        refine ⟨?_, ?_, ?_, ?_⟩
        · intro h
          rcases List.mem_cons.mp h with h | h
          · exact hc h.symm
          · exact h1 h
        · simp only [List.length_cons]; omega
        · intro x hx
          rcases List.mem_cons.mp hx with hx | hx
          · simp [hx]
          · exact List.mem_cons_of_mem _ (h3 x hx)
        · intro x hx
          exact List.mem_cons_of_mem _ (h4 x hx)

theorem getlines_record (fuel : Nat) (input : Str) :
    ∀ r ∈ getlines fuel input, '\n' ∉ r ∧ r.length ≤ 1023 ∧ ∀ c ∈ r, c ∈ input := by
  induction fuel generalizing input with
  | zero => simp [getlines]
  | succ fuel ih =>
    obtain ⟨h1, h2, h3, h4⟩ := getlineAux_record 1023 input
    intro r hr
    simp only [getlines] at hr
    by_cases hg : (getline input).2.2 = true
    · simp only [hg, if_true, List.mem_cons] at hr
      rcases hr with hr | hr
      · subst hr; exact ⟨h1, h2, h3⟩
      · obtain ⟨a, b, c⟩ := ih (getline input).2.1 r hr
        exact ⟨a, b, fun x hx => h4 x (c x hx)⟩
    · simp only [hg, Bool.false_eq_true, if_false, List.mem_singleton] at hr
      subst hr; exact ⟨h1, h2, h3⟩

theorem linesRead_record (input : Str) :
    ∀ r ∈ linesRead input, '\n' ∉ r ∧ r.length ≤ 1023 ∧ ∀ c ∈ r, c ∈ input :=
  getlines_record _ input

theorem fileLines_ne_nil (f : Str) : fileLines f ≠ [] := by
  cases f with
  | nil => simp [fileLines]
  | cons c cs =>
    simp only [fileLines]
    split
    · simp
    · split <;> simp

theorem fileLines_noNewline (line : Str) (hnl : '\n' ∉ line) : fileLines line = [line] := by
  induction line with
  | nil => rfl
  | cons c cs ih =>
    have hc : c ≠ '\n' := fun h => hnl (by simp [h])
    have hcs : '\n' ∉ cs := fun h => hnl (by simp [h])
    simp [fileLines, hc, ih hcs]

theorem fileLines_newline (line rest : Str) (hnl : '\n' ∉ line) :
    fileLines (line ++ '\n' :: rest) = line :: fileLines rest := by
  induction line with
  | nil => simp [fileLines]
  | cons c cs ih =>
    have hc : c ≠ '\n' := fun h => hnl (by simp [h])
    have hcs : '\n' ∉ cs := fun h => hnl (by simp [h])
    simp [fileLines, hc, ih hcs]

theorem str_cases_newline (f : Str) :
    '\n' ∉ f ∨ ∃ line rest, '\n' ∉ line ∧ f = line ++ '\n' :: rest := by
  induction f with
  | nil => simp
  | cons c cs ih =>
    by_cases hc : c = '\n'
    · exact Or.inr ⟨[], cs, by simp, by simp [hc]⟩
    · rcases ih with h | ⟨line, rest, h1, h2⟩
      · left
        intro h'
        rcases List.mem_cons.mp h' with h' | h'
        · exact hc h'.symm
        · exact h h'
      · right
        refine ⟨c :: line, rest, ?_, by simp [h2]⟩
        intro h'
        rcases List.mem_cons.mp h' with h' | h'
        · exact hc h'.symm
        · exact h1 h'

theorem linesRead_eq_fileLines (f : Str) (h : ∀ l ∈ fileLines f, l.length ≤ 1023) :
    linesRead f = fileLines f := by
  obtain ⟨n, hn⟩ : ∃ n, f.length = n := ⟨_, rfl⟩
  induction n using Nat.strong_induction_on generalizing f with
  | _ n ih =>
    rcases str_cases_newline f with hnl | ⟨line, rest, hnl, hf⟩
    · rw [fileLines_noNewline f hnl] at h ⊢
      have hlen : f.length ≤ 1023 := h f (by simp)
      rw [linesRead_eq]
      simp [getline, getlineAux_noNewline 1023 f hnl, List.take_of_length_le hlen]
    · subst hf
      rw [fileLines_newline line rest hnl] at h ⊢
      have hlen : line.length ≤ 1023 := h line (by simp)
      rw [linesRead_eq]
      simp only [getline, getlineAux_newline 1023 line rest hnl hlen, if_true]
      rw [ih rest.length (by rw [← hn]; simp; omega) rest (fun l hl => h l (by simp [hl])) rfl]

end Config

theorem char_eq_of_toNat {c d : Char} (h : c.toNat = d.toNat) : c = d := by
  rw [← Char.ofNat_toNat c, ← Char.ofNat_toNat d, h]

theorem toNat_ofNat_upper (n : Nat) (h1 : 65 ≤ n) (h2 : n ≤ 90) : (Char.ofNat n).toNat = n := by
  interval_cases n <;> rfl

theorem toupper_toNat (c : Char) :
    (toupper c).toNat = if 97 ≤ c.toNat ∧ c.toNat ≤ 122 then c.toNat - 32 else c.toNat := by
  unfold toupper
  by_cases h : 97 ≤ c.toNat ∧ c.toNat ≤ 122
  · simp only [h, and_self, if_true]
    exact toNat_ofNat_upper _ (by omega) (by omega)
  · simp [h]

theorem toupper_toupper (c : Char) : toupper (toupper c) = toupper c := by
  apply char_eq_of_toNat
  rw [toupper_toNat (toupper c), toupper_toNat c]
  split_ifs <;> omega

/-- A character outside `A`-`Z` is the upper-case form of itself only. -/
theorem eq_of_toupper_eq (c x : Char) (hx : ¬ (65 ≤ x.toNat ∧ x.toNat ≤ 90))
    (h : toupper c = x) : c = x := by
  have h1 : (toupper c).toNat = x.toNat := by rw [h]
  rw [toupper_toNat] at h1
  split_ifs at h1 with h2
  · omega
  · exact char_eq_of_toNat h1

theorem isspace_toupper (c : Char) : isspace (toupper c) = isspace c := by
  unfold isspace
  rw [toupper_toNat]
  split_ifs with h
  · have h1 : ¬ (c.toNat - 32 = 32) := by omega
    have h2 : ¬ (c.toNat = 32) := by omega
    have h3 : ¬ (c.toNat ≤ 13) := by omega
    have h4 : ¬ (c.toNat - 32 ≤ 13) := by omega
    simp [h1, h2, h3, h4]
  · rfl

theorem startsUpper_not_space {c : Char} {cs : Str} (h : startsUpper (c :: cs) = true) :
    isspace c = false := by
  simp only [startsUpper, Bool.and_eq_true, decide_eq_true_eq] at h
  unfold isspace
  have h1 : ¬ (c.toNat = 32) := by omega
  have h3 : ¬ (c.toNat ≤ 13) := by omega
  simp [h1, h3]

/-! ### Trimming -/

theorem trim_right_append_cons (a b : Str) (c : Char) (hc : isspace c = false) :
    trim_right (a ++ c :: b) = a ++ c :: trim_right b := by
  unfold trim_right
  induction b using List.reverseRecOn with
  | nil =>
    have : a ++ [c] = a ++ [c] := rfl
    rw [List.rdropWhile_concat_neg _ _ _ (by simp [hc])]
    simp [List.rdropWhile_nil]
  | append_singleton b x ih =>
    have e : a ++ c :: (b ++ [x]) = (a ++ c :: b) ++ [x] := by simp
    by_cases hx : isspace x = true
    · rw [e, List.rdropWhile_concat_pos _ _ _ hx, List.rdropWhile_concat_pos _ _ _ hx, ih]
    · rw [e, List.rdropWhile_concat_neg _ _ _ hx, List.rdropWhile_concat_neg _ _ _ hx]
      simp

theorem trim_right_spaces (a ws : Str) (h : ∀ x ∈ ws, isspace x = true) :
    trim_right (a ++ ws) = trim_right a := by
  unfold trim_right
  induction ws using List.reverseRecOn with
  | nil => simp
  | append_singleton b x ih =>
    have hx : isspace x = true := h x (by simp)
    rw [← List.append_assoc, List.rdropWhile_concat_pos _ _ _ hx]
    exact ih (fun y hy => h y (by simp [hy]))

theorem trim_left_spaces (ws b : Str) (h : ∀ x ∈ ws, isspace x = true) :
    trim_left (ws ++ b) = trim_left b := by
  unfold trim_left
  induction ws with
  | nil => rfl
  | cons x ws ih =>
    have hx : isspace x = true := h x (by simp)
    simp only [List.cons_append, List.dropWhile_cons, hx, if_true]
    exact ih (fun y hy => h y (by simp [hy]))

theorem trim_left_cons (c : Char) (b : Str) (hc : isspace c = false) :
    trim_left (c :: b) = c :: b := by
  simp [trim_left, List.dropWhile_cons, hc]

/-- Trimming a text whose first non-blank character is `c`. -/
theorem trim_spaces_cons (ws rest : Str) (c : Char) (h : ∀ x ∈ ws, isspace x = true)
    (hc : isspace c = false) : trim (ws ++ c :: rest) = c :: trim_right rest := by
  unfold trim
  rw [trim_right_append_cons ws rest c hc, trim_left_spaces ws _ h, trim_left_cons c _ hc]

theorem trim_cons (rest : Str) (c : Char) (hc : isspace c = false) :
    trim (c :: rest) = c :: trim_right rest :=
  trim_spaces_cons [] rest c (by simp) hc

theorem trim_all_spaces (s : Str) (h : ∀ x ∈ s, isspace x = true) : trim s = [] := by
  unfold trim
  have : trim_right s = [] := by
    unfold trim_right
    exact List.rdropWhile_eq_nil_iff.mpr h
  rw [this]; rfl

/-- A text is blank or has a first non-blank character. -/
theorem spaces_or_first (s : Str) :
    (∀ x ∈ s, isspace x = true) ∨
      ∃ ws c rest, s = ws ++ c :: rest ∧ (∀ x ∈ ws, isspace x = true) ∧ isspace c = false := by
  induction s with
  | nil => left; simp
  | cons d ds ih =>
    by_cases hd : isspace d = true
    · rcases ih with h | ⟨ws, c, rest, e, h1, h2⟩
      · left
        intro x hx
        rcases List.mem_cons.mp hx with hx | hx
        · rw [hx]; exact hd
        · exact h x hx
      · right
        refine ⟨d :: ws, c, rest, by simp [e], ?_, h2⟩
        intro x hx
        rcases List.mem_cons.mp hx with hx | hx
        · rw [hx]; exact hd
        · exact h1 x hx
    · right
      exact ⟨[], d, ds, rfl, by simp, by simpa using hd⟩

theorem trim_right_trim_right (s : Str) : trim_right (trim_right s) = trim_right s := by
  unfold trim_right
  exact List.rdropWhile_idempotent _ _

theorem trimmed_trim (s : Str) : Trimmed (trim s) := by
  unfold Trimmed
  rcases spaces_or_first s with h | ⟨ws, c, rest, e, h1, h2⟩
  · rw [trim_all_spaces s h]; rfl
  · rw [e, trim_spaces_cons ws rest c h1 h2, trim_cons _ c h2, trim_right_trim_right]

theorem trimmed_nil : Trimmed [] := rfl

theorem trimmed_cons {d : Char} {v : Str} (h : Trimmed (d :: v)) :
    isspace d = false ∧ trim_right v = v := by
  unfold Trimmed at h
  by_cases hd : isspace d = true
  · exfalso
    have h1 := List.head?_dropWhile_not isspace (trim_right (d :: v))
    have h2 : (List.dropWhile isspace (trim_right (d :: v))) = d :: v := h
    rw [h2] at h1
    simp [hd] at h1
  · have hd' : isspace d = false := by simpa using hd
    rw [trim_cons v d hd'] at h
    exact ⟨hd', by simpa using h⟩

theorem trim_subset (s : Str) : ∀ c ∈ trim s, c ∈ s := by
  intro c hc
  unfold trim trim_left trim_right at hc
  have h1 := (List.dropWhile_sublist isspace).subset hc
  exact (List.rdropWhile_prefix isspace s).subset h1

theorem trim_to_upper (s : Str) : trim (to_upper s) = to_upper (trim s) := by
  rcases spaces_or_first s with h | ⟨ws, c, rest, e, h1, h2⟩
  · rw [trim_all_spaces s h, trim_all_spaces]
    · rfl
    · intro x hx
      simp only [to_upper, List.mem_map] at hx
      obtain ⟨y, hy, rfl⟩ := hx
      rw [isspace_toupper]; exact h y hy
  · have key : ∀ r : Str, trim_right (to_upper r) = to_upper (trim_right r) := by
      intro r
      induction r using List.reverseRecOn with
      | nil => rfl
      | append_singleton b x ih =>
        unfold trim_right to_upper at ih ⊢
        rw [List.map_append, List.map_singleton]
        by_cases hx : isspace x = true
        · rw [List.rdropWhile_concat_pos _ _ _ (by rw [isspace_toupper]; exact hx),
            List.rdropWhile_concat_pos _ _ _ hx, ih]
        · rw [List.rdropWhile_concat_neg _ _ _ (by rw [isspace_toupper]; exact hx),
            List.rdropWhile_concat_neg _ _ _ hx]
          simp
    rw [e, trim_spaces_cons ws rest c h1 h2]
    have e2 : to_upper (ws ++ c :: rest) = to_upper ws ++ toupper c :: to_upper rest := by
      simp [to_upper]
    rw [e2, trim_spaces_cons (to_upper ws) (to_upper rest) (toupper c) ?_
      (by rw [isspace_toupper]; exact h2), key]
    · simp [to_upper]
    · intro x hx
      simp only [to_upper, List.mem_map] at hx
      obtain ⟨y, hy, rfl⟩ := hx
      rw [isspace_toupper]; exact h1 y hy

/-! ### Splitting -/

theorem splitFrom_no_delim (p : Char → Bool) (flag : Bool) (l : Str)
    (h : ∀ c ∈ l, p c = false) : splitFrom p flag l = [l] := by
  induction l generalizing flag with
  | nil => rfl
  | cons c cs ih =>
    have hc : p c = false := h c (by simp)
    simp [splitFrom, hc, ih false (fun x hx => h x (by simp [hx]))]

theorem splitFrom_append_delim (p : Char → Bool) (a b : Str) (d : Char)
    (ha : ∀ c ∈ a, p c = false) (hd : p d = true) :
    splitFrom p false (a ++ d :: b) = a :: splitFrom p true b := by
  induction a with
  | nil => simp [splitFrom, hd]
  | cons c cs ih =>
    have hc : p c = false := ha c (by simp)
    rw [List.cons_append]
    simp [splitFrom, hc, ih (fun x hx => ha x (by simp [hx]))]

theorem splitFrom_false_head (p : Char → Bool) (l : Str) :
    ∃ ts, splitFrom p false l = l.takeWhile (fun c => !p c) :: ts := by
  induction l with
  | nil => exact ⟨[], rfl⟩
  | cons c cs ih =>
    obtain ⟨ts, hts⟩ := ih
    by_cases hc : p c = true
    · exact ⟨splitFrom p true cs, by simp [splitFrom, hc, List.takeWhile_cons]⟩
    · exact ⟨ts, by simp [splitFrom, hc, hts, List.takeWhile_cons]⟩

theorem splitFrom_true_head (p : Char → Bool) (l : Str)
    (h : ∀ c cs, l = c :: cs → p c = false) :
    ∃ ts, splitFrom p true l = l.takeWhile (fun c => !p c) :: ts := by
  cases l with
  | nil => exact ⟨[], rfl⟩
  | cons c cs =>
    have hc : p c = false := h c cs rfl
    obtain ⟨ts, hts⟩ := splitFrom_false_head p cs
    exact ⟨ts, by simp [splitFrom, hc, hts, List.takeWhile_cons]⟩

theorem splitFrom_token (p : Char → Bool) (flag : Bool) (l : Str) :
    ∀ t ∈ splitFrom p flag l, ∀ c ∈ t, p c = false ∧ c ∈ l := by
  induction l generalizing flag with
  | nil => simp [splitFrom]
  | cons d ds ih =>
    intro t ht c hc
    by_cases hd : p d = true
    · have hrec : t = [] ∨ t ∈ splitFrom p true ds := by
        cases flag <;> simp [splitFrom, hd] at ht
        · exact ht
        · exact Or.inr ht
      rcases hrec with h | h
      · subst h; simp at hc
      · obtain ⟨h1, h2⟩ := ih true t h c hc
        exact ⟨h1, List.mem_cons_of_mem _ h2⟩
    · have hd' : p d = false := by simpa using hd
      simp only [splitFrom, hd', Bool.false_eq_true, if_false] at ht
      cases hs : splitFrom p false ds with
      | nil =>
        rw [hs] at ht
        simp only [List.mem_singleton] at ht
        subst ht
        simp only [List.mem_singleton] at hc
        subst hc
        exact ⟨hd', by simp⟩
      | cons t0 ts =>
        rw [hs] at ht
        simp only [List.mem_cons] at ht
        rcases ht with ht | ht
        · subst ht
          rcases List.mem_cons.mp hc with hc | hc
          · subst hc; exact ⟨hd', by simp⟩
          · obtain ⟨h1, h2⟩ := ih false t0 (by simp [hs]) c hc
            exact ⟨h1, List.mem_cons_of_mem _ h2⟩
        · obtain ⟨h1, h2⟩ := ih false t (by simp [hs, ht]) c hc
          exact ⟨h1, List.mem_cons_of_mem _ h2⟩

/-- The first two tokens of a text with a `=`: the text before the first `=`, and the
text after it up to the next `=`, when the `=` is not doubled. -/
theorem split_eq (a b : Str) (ha : '=' ∉ a) (hb : ∀ c cs, b = c :: cs → c ≠ '=') :
    ∃ ts, split (a ++ '=' :: b) = a :: b.takeWhile (fun c => !decide (c = '=')) :: ts := by
  unfold split
  rw [splitFrom_append_delim _ a b '=' (by
    intro c hc
    have : c ≠ '=' := fun h => ha (h ▸ hc)
    simpa using this) (by simp)]
  obtain ⟨ts, hts⟩ := splitFrom_true_head (fun c => decide (c = '=')) b (by
    intro c cs h
    simpa using hb c cs h)
  exact ⟨ts, by rw [hts]⟩

theorem takeWhile_not_eq (b : Str) (hb : '=' ∉ b) :
    b.takeWhile (fun c => !decide (c = '=')) = b := by
  rw [List.takeWhile_eq_self_iff]
  intro c hc
  have : c ≠ '=' := fun h => hb (h ▸ hc)
  simpa using this

theorem split_no_eq (l : Str) (h : '=' ∉ l) : split l = [l] := by
  unfold split
  apply splitFrom_no_delim
  intro c hc
  have : c ≠ '=' := fun h' => h (h' ▸ hc)
  simpa using this

/-! ### `cstr`, `find`, `removeComment` -/

theorem cstr_self (s : Str) (h : Char.ofNat 0 ∉ s) : cstr s = s := by
  unfold cstr
  rw [List.takeWhile_eq_self_iff]
  intro c hc
  have : c ≠ Char.ofNat 0 := fun h' => h (h' ▸ hc)
  simpa using this

theorem cstr_mem (s : Str) : ∀ c ∈ cstr s, c ≠ Char.ofNat 0 ∧ c ∈ s := by
  intro c hc
  unfold cstr at hc
  refine ⟨?_, (List.takeWhile_sublist _).subset hc⟩
  have := List.mem_takeWhile_imp hc
  simpa using this

theorem findIdx_none (s : Str) (c : Char) (h : c ∉ s) :
    s.findIdx? (fun d => decide (d = c)) = none := by
  rw [List.findIdx?_eq_none_iff]
  intro x hx
  have : x ≠ c := fun h' => h (h' ▸ hx)
  simpa using this

theorem findIdx_first (b1 b2 : Str) (c : Char) (h : c ∉ b1) :
    (b1 ++ c :: b2).findIdx? (fun d => decide (d = c)) = some b1.length := by
  induction b1 with
  | nil => simp [List.findIdx?_cons]
  | cons x xs ih =>
    have hx : x ≠ c := fun h' => h (by simp [h'])
    have hxs : c ∉ xs := fun h' => h (by simp [h'])
    rw [List.cons_append, List.findIdx?_cons]
    simp only [hx, decide_False, Bool.false_eq_true, if_false]
    rw [List.findIdx?_succ, ih hxs]
    simp

namespace Config

theorem removeComment_none (s : Str) (h : '#' ∉ s) : removeComment s = s := by
  simp [removeComment, find, findIdx_none s '#' h]

/-- The comment removal when the first `#` is at index `b1.length`: the text is cut
one character before the `#`, and not at all when the `#` comes first. -/
theorem removeComment_first (b1 b2 : Str) (h : '#' ∉ b1)
    (hlen : (b1 ++ '#' :: b2).length ≤ npos) :
    removeComment (b1 ++ '#' :: b2) =
      if b1.length = 0 then b1 ++ '#' :: b2 else b1.take (b1.length - 1) := by
  have hp : find (b1 ++ '#' :: b2) '#' = b1.length := by
    simp [find, findIdx_first b1 b2 '#' h]
  unfold removeComment
  simp only [hp]
  simp only [List.length_append, List.length_cons] at hlen
  have e64 : (2 : Nat) ^ 64 = 18446744073709551616 := by norm_num
  simp only [npos, e64] at hlen ⊢
  have hne : b1.length ≠ 18446744073709551616 - 1 := by omega
  simp only [hne, ne_eq, not_false_eq_true, if_true]
  by_cases h0 : b1.length = 0
  · have e : b1 = [] := List.length_eq_zero.mp h0
    subst e
    simp only [List.length_nil, if_true, List.nil_append]
    have : size_t_pred 0 = 18446744073709551615 := by unfold size_t_pred; norm_num
    rw [this]
    unfold substr0
    apply List.take_of_length_le
    simp only [List.length_nil, List.length_cons] at hlen ⊢
    omega
  · simp only [h0, if_false]
    have : size_t_pred b1.length = b1.length - 1 := by
      unfold size_t_pred
      have e : b1.length + 18446744073709551616 - 1
          = (b1.length - 1) + 18446744073709551616 := by omega
      rw [e64, e, Nat.add_mod_right, Nat.mod_eq_of_lt (by omega)]
    rw [this]
    unfold substr0
    rw [List.take_append_of_le_length (by omega)]

theorem removeComment_subset (s : Str) : ∀ c ∈ removeComment s, c ∈ s := by
  intro c hc
  dsimp only [removeComment] at hc
  split_ifs at hc
  · exact (List.take_sublist _ _).subset hc
  · exact hc

/-! ### The line rule -/

theorem parseLine_of_split (line s0 s1 : Str) (ts : List Str) (c : Char) (k : Str)
    (hs : split (trim (cstr line)) = s0 :: s1 :: ts)
    (hk : to_upper (trim s0) = c :: k) (hc : startsUpper (c :: k) = true) :
    parseLine line = some (c :: k, trim (removeComment s1)) := by
  simp only [startsUpper, Bool.and_eq_true, decide_eq_true_eq] at hc
  unfold parseLine
  simp only [hs, hk]
  have : ¬ (c.toNat < 65 ∨ c.toNat > 90) := by omega
  simp [this]

theorem parseLine_inv (line k v : Str) (h : parseLine line = some (k, v)) :
    ∃ s0 s1 ts, split (trim (cstr line)) = s0 :: s1 :: ts ∧ k = to_upper (trim s0)
      ∧ v = trim (removeComment s1) ∧ startsUpper k = true := by
  unfold parseLine at h
  cases hs : split (trim (cstr line)) with
  | nil => simp [hs] at h
  | cons s0 rest =>
    cases rest with
    | nil => simp [hs] at h
    | cons s1 ts =>
      simp only [hs] at h
      cases hk : to_upper (trim s0) with
      | nil => simp [hk] at h
      | cons c k0 =>
        simp only [hk] at h
        by_cases hc : c.toNat < 65 ∨ c.toNat > 90
        · simp [hc] at h
        · simp only [hc, if_false, Option.some.injEq, Prod.mk.injEq] at h
          refine ⟨s0, s1, ts, rfl, ?_, h.2.symm, ?_⟩
          · rw [hk]; exact h.1.symm
          · rw [← h.1]
            simp only [startsUpper, Bool.and_eq_true, decide_eq_true_eq]
            omega

theorem parseLine_nil : parseLine [] = none := by decide

theorem parseLine_startsUpper (line k v : Str) (h : parseLine line = some (k, v)) :
    startsUpper k = true := by
  obtain ⟨_, _, _, _, _, _, h4⟩ := parseLine_inv line k v h
  exact h4

/-- A line that passes begins, once trimmed, with a character whose upper-case form
lies in `A`-`Z`. -/
theorem parseLine_head (line k v : Str) (h : parseLine line = some (k, v)) :
    ∃ c rest, trim (cstr line) = c :: rest ∧ 65 ≤ (toupper c).toNat ∧ (toupper c).toNat ≤ 90 := by
  obtain ⟨s0, s1, ts, hs, hk, _, hu⟩ := parseLine_inv line k v h
  obtain ⟨ts0, hts0⟩ := splitFrom_false_head (fun c => decide (c = '=')) (trim (cstr line))
  unfold split at hs
  rw [hts0] at hs
  have hs0 : s0 = (trim (cstr line)).takeWhile (fun c => !decide (c = '=')) := by
    simp only [List.cons.injEq] at hs
    exact hs.1.symm
  have htr : Trimmed (trim (cstr line)) := trimmed_trim _
  cases hl : trim (cstr line) with
  | nil =>
    rw [hl] at hs0
    simp only [List.takeWhile_nil] at hs0
    subst hs0
    rw [hk] at hu
    simp [trim, trim_left, trim_right, to_upper, startsUpper, List.rdropWhile_nil] at hu
  | cons c rest =>
    rw [hl] at htr hs0
    obtain ⟨hc, _⟩ := trimmed_cons htr
    refine ⟨c, rest, rfl, ?_⟩
    by_cases hceq : c = '='
    · rw [List.takeWhile_cons] at hs0
      simp only [hceq, decide_True, Bool.not_true, Bool.false_eq_true, if_false] at hs0
      subst hs0
      rw [hk] at hu
      simp [trim, trim_left, trim_right, to_upper, startsUpper, List.rdropWhile_nil] at hu
    · rw [List.takeWhile_cons] at hs0
      simp only [hceq, decide_False, Bool.not_false, if_true] at hs0
      rw [hk, hs0, trim_cons _ c hc] at hu
      simpa [to_upper, startsUpper] using hu

/-! ### Reading a file of one line -/

theorem read_single (s : Store) (line : Str) (hnl : '\n' ∉ line) :
    read s (some line) = processLine s (line.take 1023) := by
  rw [read_eq_foldl, linesRead_eq]
  simp [getline, getlineAux_noNewline 1023 line hnl]

theorem read_single_newline (s : Store) (line : Str) (hnl : '\n' ∉ line) :
    read s (some (line ++ ['\n'])) = processLine s (line.take 1023) := by
  rw [read_eq_foldl, linesRead_eq]
  by_cases hlen : line.length ≤ 1023
  · simp only [getline, getlineAux_newline 1023 line [] hnl hlen, if_true]
    rw [linesRead_eq]
    simp only [getline, getlineAux, Bool.false_eq_true, if_false, List.foldl_cons, List.foldl_nil]
    rw [List.take_of_length_le hlen]
    simp [processLine, parseLine_nil]
  · simp [getline, getlineAux_long 1023 line [] hnl (by omega)]

/-! ### Invariants of the loop -/

theorem foldl_processLine_inv (P : Str × Str → Prop) (lines : List Str) (s : Store)
    (hs : ∀ e ∈ s, P e) (hl : ∀ r ∈ lines, ∀ kv, parseLine r = some kv → P kv) :
    ∀ e ∈ lines.foldl processLine s, P e := by
  induction lines generalizing s with
  | nil => simpa using hs
  | cons r rs ih =>
    rw [List.foldl_cons]
    apply ih
    · rw [processLine_eq]
      cases hp : parseLine r with
      | none => simpa using hs
      | some kv =>
        intro e he
        rcases mem_put kv.1 kv.2 s e he with h | h
        · rw [h]; exact hl r (by simp) kv hp
        · exact hs e h
    · intro r' hr'
      exact hl r' (by simp [hr'])

theorem foldl_processLine_ordered (lines : List Str) (s : Store) (hs : Ordered s) :
    Ordered (lines.foldl processLine s) := by
  induction lines generalizing s with
  | nil => simpa using hs
  | cons r rs ih =>
    rw [List.foldl_cons]
    apply ih
    rw [processLine_eq]
    cases hp : parseLine r with
    | none => simpa using hs
    | some kv => exact put_ordered kv.1 kv.2 s hs

theorem lookup_mem (k v : Str) (s : Store) (h : lookup k s = some v) : (k, v) ∈ s := by
  induction s with
  | nil => simp [lookup] at h
  | cons e rest ih =>
    obtain ⟨k1, v1⟩ := e
    by_cases h1 : strLt k k1 = true
    · simp [lookup, h1] at h
    · by_cases h2 : strLt k1 k = true
      · simp only [lookup, h1, h2, if_true, if_false, Bool.false_eq_true] at h
        exact List.mem_cons_of_mem _ (ih h)
      · have e : k = k1 := strLt_total k k1 (by simpa using h1) (by simpa using h2)
        simp only [lookup, h1, h2, if_false, Bool.false_eq_true, Option.some.injEq] at h
        simp [e, h]

theorem exists_eq_true_iff (s : Store) (k : Str) :
    «exists» s k = true ↔ ∃ v, lookup k s = some v := by
  unfold «exists» count
  cases h : lookup k s <;> simp

theorem exists_eq_false_iff (s : Store) (k : Str) :
    «exists» s k = false ↔ lookup k s = none := by
  unfold «exists» count
  cases h : lookup k s <;> simp

theorem trim_eq_nil (s : Str) (h : trim s = []) : ∀ x ∈ s, isspace x = true := by
  rcases spaces_or_first s with h1 | ⟨ws, c, rest, e, h1, h2⟩
  · exact h1
  · rw [e, trim_spaces_cons ws rest c h1 h2] at h
    simp at h

theorem isspace_false_of_startsUpper (a : Str) (h : startsUpper (to_upper (trim a)) = true) :
    ∃ ws c rest, a = ws ++ c :: rest ∧ (∀ x ∈ ws, isspace x = true) ∧ isspace c = false := by
  rcases spaces_or_first a with h1 | h1
  · rw [trim_all_spaces a h1] at h
    simp [to_upper, startsUpper] at h
  · exact h1

/-- The line rule on a line with a `=`: the key comes from the text before the first
`=`, the value from the text after it up to the next `=`. -/
theorem parseLine_eq (a b : Str) (ha : '=' ∉ a) (hnul : Char.ofNat 0 ∉ a ++ '=' :: b)
    (hkey : startsUpper (to_upper (trim a)) = true)
    (hb : ∀ c cs, trim_right b = c :: cs → c ≠ '=') :
    parseLine (a ++ '=' :: b) = some (to_upper (trim a),
      trim (removeComment ((trim_right b).takeWhile (fun c => !decide (c = '='))))) := by
  obtain ⟨ws, c, rest, e, h1, h2⟩ := isspace_false_of_startsUpper a hkey
  have hl : trim (cstr (a ++ '=' :: b)) = (c :: rest) ++ '=' :: trim_right b := by
    rw [cstr_self _ hnul, e]
    have : ws ++ c :: rest ++ '=' :: b = ws ++ c :: (rest ++ '=' :: b) := by simp
    rw [this, trim_spaces_cons ws _ c h1 h2, trim_right_append_cons rest b '=' (by decide)]
    simp
  have ha' : '=' ∉ c :: rest := by
    intro hmem
    apply ha
    rw [e]
    exact List.mem_append_right _ hmem
  obtain ⟨ts, hts⟩ := split_eq (c :: rest) (trim_right b) ha' hb
  have hk : to_upper (trim (c :: rest)) = to_upper (trim a) := by
    rw [e, trim_spaces_cons ws rest c h1 h2, trim_cons rest c h2]
  cases hk2 : to_upper (trim a) with
  | nil => rw [hk2] at hkey; simp [startsUpper] at hkey
  | cons c0 k0 =>
    rw [hk2] at hk hkey
    exact parseLine_of_split _ _ _ ts c0 k0 (by rw [hl, hts]) hk hkey

theorem trim_right_subset (s : Str) : ∀ c ∈ trim_right s, c ∈ s := by
  intro c hc
  exact (List.rdropWhile_prefix isspace s).subset hc

theorem trim_trim_right (s : Str) : trim (trim_right s) = trim s := by
  unfold trim
  rw [trim_right_trim_right]

/-- The line rule on a line with one `=` and no `#`. -/
theorem parseLine_well_formed (a b : Str) (ha : '=' ∉ a) (hb : '=' ∉ b) (hhash : '#' ∉ b)
    (hnul : Char.ofNat 0 ∉ a ++ '=' :: b) (hkey : startsUpper (to_upper (trim a)) = true) :
    parseLine (a ++ '=' :: b) = some (to_upper (trim a), trim b) := by
  have hb' : '=' ∉ trim_right b := fun h => hb (trim_right_subset b _ h)
  have hh' : '#' ∉ trim_right b := fun h => hhash (trim_right_subset b _ h)
  rw [parseLine_eq a b ha hnul hkey (by
    intro c cs h hc
    apply hb'
    rw [h, hc]
    simp)]
  rw [takeWhile_not_eq _ hb', removeComment_none _ hh', trim_trim_right]

/-- The line rule on a line whose text after the first `=` has its first `#` after
`b1`, where `b1` is not empty and has no `=`. -/
theorem parseLine_comment (a b1 b2 : Str) (ha : '=' ∉ a) (hb1 : '=' ∉ b1) (hh1 : '#' ∉ b1)
    (hp : 1 ≤ b1.length) (hlen : (a ++ '=' :: (b1 ++ '#' :: b2)).length ≤ 1023)
    (hnul : Char.ofNat 0 ∉ a ++ '=' :: (b1 ++ '#' :: b2))
    (hkey : startsUpper (to_upper (trim a)) = true) :
    parseLine (a ++ '=' :: (b1 ++ '#' :: b2))
      = some (to_upper (trim a), trim (b1.take (b1.length - 1))) := by
  have htr : trim_right (b1 ++ '#' :: b2) = b1 ++ '#' :: trim_right b2 :=
    trim_right_append_cons b1 b2 '#' (by decide)
  rw [parseLine_eq a _ ha hnul hkey (by
    intro c cs h hc
    rw [htr] at h
    cases b1 with
    | nil => simp at hp
    | cons d ds =>
      simp only [List.cons_append, List.cons.injEq] at h
      apply hb1
      rw [h.1, hc]
      simp)]
  rw [htr]
  have e1 : (b1 ++ '#' :: trim_right b2).takeWhile (fun c => !decide (c = '='))
      = b1 ++ '#' :: (trim_right b2).takeWhile (fun c => !decide (c = '=')) := by
    rw [List.takeWhile_append_of_pos (by
      intro c hc
      have : c ≠ '=' := fun h => hb1 (h ▸ hc)
      simpa using this)]
    rw [List.takeWhile_cons]
    simp
  rw [e1, removeComment_first b1 _ hh1 (by
    have h1 := (List.takeWhile_sublist (l := trim_right b2)
      (fun c => !decide (c = '='))).length_le
    have h2 : (trim_right b2).length ≤ b2.length :=
      (List.rdropWhile_prefix isspace b2).sublist.length_le
    simp only [List.length_append, List.length_cons] at hlen ⊢
    unfold npos
    have e64 : (2 : Nat) ^ 64 = 18446744073709551616 := by norm_num
    rw [e64]
    omega)]
  have : b1.length ≠ 0 := by omega
  simp [this]

theorem parseLine_none_of_no_eq (r : Str) (h : '=' ∉ trim (cstr r)) : parseLine r = none := by
  unfold parseLine
  simp [split_no_eq _ h]

theorem trim_cstr_spaces (r : Str) (h : ∀ x ∈ r, isspace x = true) : trim (cstr r) = [] :=
  trim_all_spaces _ (fun x hx => h x (cstr_mem r x hx).2)

/-- The trimmed text of a truncated buffer is empty or begins with the first non-blank
character of the line. -/
theorem trim_cstr_take_head (ws rest : Str) (c : Char) (n : Nat)
    (h1 : ∀ x ∈ ws, isspace x = true) (h2 : isspace c = false) (h3 : c ≠ Char.ofNat 0) :
    trim (cstr ((ws ++ c :: rest).take n)) = []
      ∨ ∃ r, trim (cstr ((ws ++ c :: rest).take n)) = c :: r := by
  by_cases hn : n ≤ ws.length
  · left
    rw [List.take_append_of_le_length hn]
    exact trim_cstr_spaces _ (fun x hx => h1 x ((List.take_sublist n ws).subset hx))
  · right
    obtain ⟨m, hm⟩ : ∃ m, n = ws.length + (m + 1) := ⟨n - ws.length - 1, by omega⟩
    rw [hm, List.take_append, List.take_succ_cons]
    have hws : ∀ x ∈ ws, (fun d => decide (d ≠ Char.ofNat 0)) x = true := by
      intro x hx
      have hsp := h1 x hx
      have : x ≠ Char.ofNat 0 := by
        intro e
        rw [e] at hsp
        revert hsp
        decide
      simpa using this
    unfold cstr
    rw [List.takeWhile_append_of_pos hws, List.takeWhile_cons]
    simp only [ne_eq, h3, not_false_eq_true, decide_True, if_true]
    exact ⟨_, trim_spaces_cons ws _ c h1 h2⟩

/-- The lines that `Config::read` skips: blank lines, lines that begin with `#`, lines
without `=`; also when only the first `n` characters reach the buffer. -/
theorem parseLine_skip (line : Str) (n : Nat)
    (h : trim line = [] ∨ (trim line).head? = some '#' ∨ '=' ∉ line) :
    parseLine (line.take n) = none := by
  rcases h with h | h | h
  · apply parseLine_none_of_no_eq
    rw [trim_cstr_spaces _ (fun x hx => trim_eq_nil line h x ((List.take_sublist n line).subset hx))]
    simp
  · rcases spaces_or_first line with h1 | ⟨ws, c, rest, e, h1, h2⟩
    · rw [trim_all_spaces line h1] at h
      simp at h
    · rw [e, trim_spaces_cons ws rest c h1 h2] at h
      simp only [List.head?_cons, Option.some.injEq] at h
      subst h
      rw [e]
      rcases trim_cstr_take_head ws rest '#' n h1 h2 (by decide) with h3 | ⟨r, h3⟩
      · apply parseLine_none_of_no_eq
        rw [h3]; simp
      · cases hp : parseLine ((ws ++ '#' :: rest).take n) with
        | none => rfl
        | some kv =>
          obtain ⟨k, v⟩ := kv
          obtain ⟨c, rest', h4, h5, h6⟩ := parseLine_head _ k v hp
          rw [h3] at h4
          simp only [List.cons.injEq] at h4
          rw [← h4.1] at h5
          have h7 : ¬ (65 ≤ (toupper '#').toNat) := by decide
          exact absurd h5 h7
  · apply parseLine_none_of_no_eq
    intro hmem
    exact h ((List.take_sublist n line).subset ((cstr_mem _ _ (trim_subset _ _ hmem)).2))

end Config

/-! ### Decimal text -/

theorem digitChar_toNat (d : Nat) (h : d < 10) : (Nat.digitChar d).toNat = 48 + d := by
  interval_cases d <;> rfl

theorem digitsValue_append (xs : Str) (d : Char) :
    digitsValue (xs ++ [d]) = 10 * digitsValue xs + (d.toNat - 48) := by
  simp [digitsValue, List.foldl_append]

theorem toDigitsCore_spec (fuel n : Nat) (ds : Str) (h : n < fuel) :
    ∃ xs, Nat.toDigitsCore 10 fuel n ds = xs ++ ds ∧ xs ≠ []
      ∧ (∀ c ∈ xs, isdigit c = true) ∧ digitsValue xs = n := by
  induction fuel generalizing n ds with
  | zero => omega
  | succ fuel ih =>
    have hd : (Nat.digitChar (n % 10)).toNat = 48 + n % 10 :=
      digitChar_toNat _ (Nat.mod_lt _ (by norm_num))
    have hdig : isdigit (Nat.digitChar (n % 10)) = true := by
      unfold isdigit
      rw [hd]
      have := Nat.mod_lt n (show 10 > 0 by norm_num)
      simp
      omega
    unfold Nat.toDigitsCore
    by_cases h0 : n / 10 = 0
    · refine ⟨[Nat.digitChar (n % 10)], by simp [h0], by simp, by simpa using hdig, ?_⟩
      simp only [digitsValue, List.foldl_cons, List.foldl_nil, hd]
      omega
    · obtain ⟨xs, e, hne, hall, hval⟩ := ih (n / 10) (Nat.digitChar (n % 10) :: ds) (by omega)
      refine ⟨xs ++ [Nat.digitChar (n % 10)], ?_, by simp, ?_, ?_⟩
      · simp only [h0, if_false]
        rw [e]; simp
      · intro c hc
        rcases List.mem_append.mp hc with hc | hc
        · exact hall c hc
        · simp only [List.mem_singleton] at hc
          rw [hc]; exact hdig
      · rw [digitsValue_append, hval, hd]
        omega

theorem toDigits_spec (n : Nat) :
    Nat.toDigits 10 n ≠ [] ∧ (∀ c ∈ Nat.toDigits 10 n, isdigit c = true)
      ∧ digitsValue (Nat.toDigits 10 n) = n := by
  obtain ⟨xs, e, hne, hall, hval⟩ := toDigitsCore_spec (n + 1) n [] (by omega)
  unfold Nat.toDigits
  rw [e, List.append_nil]
  exact ⟨hne, hall, hval⟩

/-- The body of `lexical_cast<int>` on a text without sign. -/
theorem lexical_cast_int_digits (xs : Str) (hne : xs ≠ []) (hall : ∀ c ∈ xs, isdigit c = true)
    (hmax : (digitsValue xs : Int) ≤ INT_MAX) :
    lexical_cast_int xs = Except.ok (digitsValue xs : Int) := by
  cases xs with
  | nil => exact absurd rfl hne
  | cons c cs =>
    have hc : isdigit c = true := hall c (by simp)
    have hcs : cs.all isdigit = true := by
      rw [List.all_eq_true]
      intro x hx
      exact hall x (by simp [hx])
    have h1 : c ≠ '-' := by
      intro e; rw [e] at hc; revert hc; decide
    have h2 : c ≠ '+' := by
      intro e; rw [e] at hc; revert hc; decide
    have hmin : INT_MIN ≤ (digitsValue (c :: cs) : Int) := by
      unfold INT_MIN
      have : (0 : Int) ≤ (digitsValue (c :: cs) : Int) := Int.natCast_nonneg _
      omega
    unfold lexical_cast_int
    split
    · rename_i r heq
      simp only [List.cons.injEq] at heq
      exact absurd heq.1 h1
    · rename_i r heq
      simp only [List.cons.injEq] at heq
      exact absurd heq.1 h2
    · simp [hc, hcs, hmin, hmax]

theorem lexical_cast_int_neg (xs : Str) (hne : xs ≠ []) (hall : ∀ c ∈ xs, isdigit c = true)
    (hmin : INT_MIN ≤ -(digitsValue xs : Int)) :
    lexical_cast_int ('-' :: xs) = Except.ok (-(digitsValue xs : Int)) := by
  have hall' : xs.all isdigit = true := by
    rw [List.all_eq_true]
    exact hall
  have hmax : -(digitsValue xs : Int) ≤ INT_MAX := by
    unfold INT_MAX
    have : (0 : Int) ≤ (digitsValue xs : Int) := Int.natCast_nonneg _
    omega
  have hne' : xs.isEmpty = false := by
    cases xs with
    | nil => exact absurd rfl hne
    | cons c cs => rfl
  simp [lexical_cast_int, hall', hne', hmin, hmax]

/-- Reading back the decimal text of an `int`. -/
theorem lexical_cast_int_string (n : Int) (hmin : INT_MIN ≤ n) (hmax : n ≤ INT_MAX) :
    lexical_cast_int (lexical_cast_string n) = Except.ok n := by
  unfold lexical_cast_string
  by_cases hn : n < 0
  · obtain ⟨hne, hall, hval⟩ := toDigits_spec n.natAbs
    simp only [hn, if_true]
    have e : -(digitsValue (Nat.toDigits 10 n.natAbs) : Int) = n := by
      rw [hval]; omega
    rw [lexical_cast_int_neg _ hne hall (by rw [e]; exact hmin), e]
  · obtain ⟨hne, hall, hval⟩ := toDigits_spec n.toNat
    simp only [hn, if_false]
    have e : (digitsValue (Nat.toDigits 10 n.toNat) : Int) = n := by
      rw [hval]; omega
    rw [lexical_cast_int_digits _ hne hall (by rw [e]; exact hmax), e]

end tbd

namespace tbd

namespace Config

theorem mapInsert_put (k v w : Str) (s : Store) :
    mapInsert k w (put k v s) = put k v s := by
  induction s with
  | nil => simp [mapInsert, put, strLt_irrefl]
  | cons e rest ih =>
    obtain ⟨k1, v1⟩ := e
    by_cases h1 : strLt k k1 = true
    · simp [mapInsert, put, h1, strLt_irrefl]
    · by_cases h2 : strLt k1 k = true
      · simp [mapInsert, put, h1, h2, ih]
      · simp [mapInsert, put, h1, h2]

/-! ### Duplicate keys -/

theorem foldl_processLine_keep (lines : List Str) (s : Store) (k v : Str)
    (hs : lookup k s = some v) (hl : ∀ l ∈ lines, (parseLine l).map Prod.fst ≠ some k) :
    lookup k (lines.foldl processLine s) = some v := by
  induction lines generalizing s with
  | nil => simpa using hs
  | cons r rs ih =>
    rw [List.foldl_cons]
    apply ih
    · rw [processLine_eq]
      cases hp : parseLine r with
      | none => simpa using hs
      | some kv =>
        obtain ⟨k1, v1⟩ := kv
        have hne : k ≠ k1 := by
          intro e
          apply hl r (by simp)
          rw [hp, e]
          rfl
        simp only
        rw [lookup_put_ne k1 v1 k s hne]
        exact hs
    · intro l hl'
      exact hl l (by simp [hl'])

/-- The value of the last line that yields a key is the value stored under it. -/
theorem foldl_processLine_last (s : Store) (pre post : List Str) (line k v : Str)
    (hline : parseLine line = some (k, v))
    (hlast : ∀ l ∈ post, (parseLine l).map Prod.fst ≠ some k) :
    lookup k ((pre ++ line :: post).foldl processLine s) = some v := by
  rw [List.foldl_append, List.foldl_cons]
  apply foldl_processLine_keep post _ k v _ hlast
  rw [processLine_eq, hline]
  exact lookup_put_self _ _ _

theorem not_mem_replicate (n : Nat) (c d : Char) (h : c ≠ d) : c ∉ List.replicate n d := by
  intro hm
  exact h (List.eq_of_mem_replicate hm)

/-! ### The entries that `read` stores, and their lines in the output -/

theorem to_upper_to_upper (s : Str) : to_upper (to_upper s) = to_upper s := by
  simp [to_upper, toupper_toupper]

theorem plain_to_upper (s : Str) (h : Plain s) : Plain (to_upper s) := by
  intro c hc
  simp only [to_upper, List.mem_map] at hc
  obtain ⟨d, hd, rfl⟩ := hc
  obtain ⟨h1, h2, h3, h4⟩ := h d hd
  refine ⟨?_, ?_, ?_, ?_⟩
  · intro e; exact h1 (eq_of_toupper_eq d _ (by decide) e)
  · intro e; exact h2 (eq_of_toupper_eq d _ (by decide) e)
  · intro e; exact h3 (eq_of_toupper_eq d _ (by decide) e)
  · intro e; exact h4 (eq_of_toupper_eq d _ (by decide) e)

/-- What `read` stores for a line without newline and without `#`. -/
theorem parseLine_entryOK (r k v : Str) (h : parseLine r = some (k, v))
    (hnl : '\n' ∉ r) (hhash : '#' ∉ r) : EntryOK (k, v) := by
  obtain ⟨s0, s1, ts, hs, hk, hv, hu⟩ := parseLine_inv r k v h
  have htok : ∀ t ∈ split (trim (cstr r)), Plain t := by
    intro t ht c hc
    obtain ⟨h1, h2⟩ := splitFrom_token _ false _ t ht c hc
    obtain ⟨h3, h4⟩ := cstr_mem r c (trim_subset _ c h2)
    refine ⟨by simpa using h1, ?_, h3, ?_⟩
    · intro e; exact hnl (e ▸ h4)
    · intro e; exact hhash (e ▸ h4)
  have hp0 : Plain s0 := htok s0 (by rw [hs]; simp)
  have hp1 : Plain s1 := htok s1 (by rw [hs]; simp)
  refine ⟨?_, ?_, hu, ?_, ?_, ?_⟩
  · show trim k = k
    rw [hk, trim_to_upper, trimmed_trim s0]
  · show to_upper k = k
    rw [hk, to_upper_to_upper]
  · show Plain k
    rw [hk]
    exact plain_to_upper _ (fun c hc => hp0 c (trim_subset _ c hc))
  · show trim v = v
    rw [hv]
    exact trimmed_trim _
  · show Plain v
    rw [hv]
    exact fun c hc => hp1 c (removeComment_subset _ c (trim_subset _ c hc))

theorem trim_space_cons (v : Str) (h : Trimmed v) : trim (' ' :: v) = v := by
  cases v with
  | nil => decide
  | cons d ds =>
    obtain ⟨h1, h2⟩ := trimmed_cons h
    have := trim_spaces_cons [' '] ds d (by decide) h1
    simp only [List.singleton_append] at this
    rw [this, h2]

/-- The line that `operator<<` writes for an entry is read back as that entry. -/
theorem parseLine_lineOf (e : Str × Str) (h : EntryOK e) : parseLine (lineOf e) = some e := by
  obtain ⟨k, v⟩ := e
  obtain ⟨hk1, hk2, hk3, hk4, hv1, hv2⟩ := h
  simp only at hk1 hk2 hk3 hk4 hv1 hv2
  have e1 : lineOf (k, v) = (k ++ [' ']) ++ '=' :: (' ' :: v) := by
    simp [lineOf]
  have ha : '=' ∉ k ++ [' '] := by
    intro hm
    rcases List.mem_append.mp hm with hm | hm
    · exact (hk4 _ hm).1 rfl
    · revert hm; decide
  have htk : trim (k ++ [' ']) = k := by
    unfold trim
    rw [trim_right_spaces k [' '] (by decide)]
    exact hk1
  have hnul : Char.ofNat 0 ∉ (k ++ [' ']) ++ '=' :: (' ' :: v) := by
    intro hm
    simp only [List.mem_append, List.mem_cons, List.mem_singleton] at hm
    rcases hm with (hm | hm) | hm | hm | hm
    · exact (hk4 _ hm).2.2.1 rfl
    · revert hm; decide
    · revert hm; decide
    · revert hm; decide
    · exact (hv2 _ hm).2.2.1 rfl
  have hsub : ∀ c ∈ trim_right (' ' :: v), c ≠ '=' ∧ c ≠ '#' := by
    intro c hc
    rcases List.mem_cons.mp (trim_right_subset _ c hc) with hc | hc
    · rw [hc]; decide
    · exact ⟨(hv2 c hc).1, (hv2 c hc).2.2.2⟩
  rw [e1, parseLine_eq _ _ ha hnul (by rw [htk, hk2]; exact hk3) (by
    intro c cs hc
    exact (hsub c (by rw [hc]; simp)).1)]
  rw [takeWhile_not_eq _ (fun hm => (hsub _ hm).1 rfl),
    removeComment_none _ (fun hm => (hsub _ hm).2 rfl), trim_trim_right, htk, hk2,
    trim_space_cons v hv1]

theorem lineOf_no_newline (e : Str × Str) (h : EntryOK e) : '\n' ∉ lineOf e := by
  obtain ⟨k, v⟩ := e
  obtain ⟨_, _, _, hk4, _, hv2⟩ := h
  intro hm
  simp only [lineOf, String.toList, List.mem_append, List.mem_cons] at hm
  rcases hm with hm | hm | hm
  · exact (hk4 _ hm).2.1 rfl
  · revert hm; decide
  · exact (hv2 _ hm).2.1 rfl

theorem output_cons (e : Str × Str) (rest : Store) :
    output (e :: rest) = lineOf e ++ '\n' :: output rest := by
  obtain ⟨k, v⟩ := e
  simp [output, lineOf]

/-- The lines that `read` takes from the output of `operator<<`. -/
theorem linesRead_output (s : Store) (hok : ∀ e ∈ s, EntryOK e)
    (hfit : ∀ e ∈ s, (lineOf e).length ≤ 1023) :
    linesRead (output s) = s.map lineOf ++ [[]] := by
  induction s with
  | nil =>
    rw [linesRead_eq]
    simp [getline, getlineAux, output]
  | cons e rest ih =>
    rw [output_cons, linesRead_eq]
    simp only [getline, getlineAux_newline 1023 _ _ (lineOf_no_newline e (hok e (by simp)))
      (hfit e (by simp)), if_true]
    rw [ih (fun x hx => hok x (by simp [hx])) (fun x hx => hfit x (by simp [hx]))]
    simp

theorem foldl_processLine_lineOf (s acc : Store) (hok : ∀ e ∈ s, EntryOK e) :
    (s.map lineOf).foldl processLine acc = s.foldl (fun t e => put e.1 e.2 t) acc := by
  induction s generalizing acc with
  | nil => rfl
  | cons e rest ih =>
    simp only [List.map_cons, List.foldl_cons]
    rw [processLine_eq, parseLine_lineOf e (hok e (by simp))]
    exact ih _ (fun x hx => hok x (by simp [hx]))

/-- Reading the output of `operator<<` into an empty store gives the store back, when
its entries are of the kind `read` stores and their lines fit the buffer. -/
theorem read_output (s : Store) (hord : Ordered s) (hok : ∀ e ∈ s, EntryOK e)
    (hfit : ∀ e ∈ s, (lineOf e).length ≤ 1023) :
    read [] (some (output s)) = s := by
  rw [read_eq_foldl, linesRead_output s hok hfit, List.foldl_append,
    foldl_processLine_lineOf s [] hok]
  simp only [List.foldl_cons, List.foldl_nil]
  rw [processLine_eq, parseLine_nil]
  simp only
  rw [foldl_put_ordered s [] (by simpa using hord)]
  simp

theorem trim_of_no_space (s : Str) (h : ∀ c ∈ s, isspace c = false) : trim s = s := by
  cases s with
  | nil => rfl
  | cons c cs =>
    rw [trim_cons cs c (h c (by simp))]
    congr 1
    unfold trim_right
    rw [List.rdropWhile_eq_self_iff]
    intro hl
    have := h _ (List.mem_cons_of_mem c (List.getLast_mem hl))
    simp [this]

theorem trim_replicate_x (n : Nat) : trim (List.replicate n 'x') = List.replicate n 'x' := by
  apply trim_of_no_space
  intro c hc
  rw [List.eq_of_mem_replicate hc]
  decide

/-! ### `operator[]` and the order of the entries -/

theorem mapInsert_absent (k w : Str) (s : Store) (h : lookup k s = none) :
    mapInsert k w s = put k w s := by
  induction s with
  | nil => rfl
  | cons e rest ih =>
    obtain ⟨k1, v1⟩ := e
    by_cases h1 : strLt k k1 = true
    · simp [mapInsert, put, h1]
    · by_cases h2 : strLt k1 k = true
      · simp only [lookup, h1, h2, if_true, if_false, Bool.false_eq_true] at h
        simp [mapInsert, put, h1, h2, ih h]
      · simp [lookup, h1, h2] at h

theorem mapInsert_present (k w v : Str) (s : Store) (h : lookup k s = some v) :
    mapInsert k w s = s := by
  induction s with
  | nil => simp [lookup] at h
  | cons e rest ih =>
    obtain ⟨k1, v1⟩ := e
    by_cases h1 : strLt k k1 = true
    · simp [lookup, h1] at h
    · by_cases h2 : strLt k1 k = true
      · simp only [lookup, h1, h2, if_true, if_false, Bool.false_eq_true] at h
        simp [mapInsert, h1, h2, ih h]
      · simp [mapInsert, h1, h2]

theorem lookup_mapInsert_ne (k w j : Str) (s : Store) (hne : j ≠ k) :
    lookup j (mapInsert k w s) = lookup j s := by
  cases h : lookup k s with
  | none => rw [mapInsert_absent k w s h, lookup_put_ne k w j s hne]
  | some v => rw [mapInsert_present k w v s h]

theorem mapInsert_ordered (k w : Str) (s : Store) (hs : Ordered s) :
    Ordered (mapInsert k w s) := by
  cases h : lookup k s with
  | none => rw [mapInsert_absent k w s h]; exact put_ordered k w s hs
  | some v => rw [mapInsert_present k w v s h]; exact hs

theorem set_ordered (s : Store) (k v : Str) (hs : Ordered s) : Ordered (set s k v) := by
  rw [set_eq_put]; exact put_ordered k v s hs

theorem read_ordered (s : Store) (file : Option Str) (hs : Ordered s) :
    Ordered (read s file) := by
  cases file with
  | none => exact hs
  | some content => rw [read_eq_foldl]; exact foldl_processLine_ordered _ s hs

/-- The entries of a `Config` are always in strictly ascending key order. -/
theorem reachable_ordered (s : Store) (h : Reachable s) : Ordered s := by
  induction h with
  | empty => simp [Ordered]
  | read s file _ ih => exact read_ordered s file ih
  | set s k v _ ih => exact set_ordered s k v ih
  | get s k _ ih => exact mapInsert_ordered k [] s ih

theorem lookup_lt_head (k k1 v1 : Str) (rest : Store) (hs : Ordered ((k1, v1) :: rest))
    (h : strLt k1 k = false) : lookup k rest = none := by
  unfold Ordered at hs
  rw [List.pairwise_cons] at hs
  cases rest with
  | nil => rfl
  | cons e2 r2 =>
    obtain ⟨k2, v2⟩ := e2
    have h12 : strLt k1 k2 = true := hs.1 (k2, v2) (by simp)
    have : strLt k k2 = true := by
      by_cases hk : strLt k k1 = true
      · exact strLt_trans k k1 k2 hk h12
      · have e : k = k1 := strLt_total k k1 (by simpa using hk) h
        rw [e]; exact h12
    simp [lookup, this]

/-- Two stores in ascending key order that hold the same value under every key are
the same store. -/
theorem store_ext (s1 s2 : Store) (h1 : Ordered s1) (h2 : Ordered s2)
    (h : ∀ k, lookup k s1 = lookup k s2) : s1 = s2 := by
  induction s1 generalizing s2 with
  | nil =>
    cases s2 with
    | nil => rfl
    | cons e2 r2 =>
      obtain ⟨k2, v2⟩ := e2
      have := h k2
      simp [lookup, strLt_irrefl] at this
  | cons e1 r1 ih =>
    obtain ⟨k1, v1⟩ := e1
    cases s2 with
    | nil =>
      have := h k1
      simp [lookup, strLt_irrefl] at this
    | cons e2 r2 =>
      obtain ⟨k2, v2⟩ := e2
      have ha := h k1
      have hb := h k2
      simp only [lookup, strLt_irrefl, Bool.false_eq_true, if_false] at ha hb
      have n12 : strLt k1 k2 = false := by
        by_cases c : strLt k1 k2 = true
        · simp [c] at ha
        · simpa using c
      have n21 : strLt k2 k1 = false := by
        by_cases c : strLt k2 k1 = true
        · simp [c] at hb
        · simpa using c
      have ek : k1 = k2 := strLt_total k1 k2 n12 n21
      subst ek
      simp only [n12, Bool.false_eq_true, if_false, Option.some.injEq] at ha
      subst ha
      have ht : r1 = r2 := by
        apply ih r2
        · unfold Ordered at h1 ⊢; exact (List.pairwise_cons.mp h1).2
        · unfold Ordered at h2 ⊢; exact (List.pairwise_cons.mp h2).2
        · intro k
          by_cases c : strLt k1 k = true
          · have hk := h k
            have c' : strLt k k1 = false := strLt_asymm k1 k c
            simpa [lookup, c, c'] using hk
          · have c' : strLt k1 k = false := by simpa using c
            rw [lookup_lt_head k k1 v1 r1 h1 c', lookup_lt_head k k1 v1 r2 h2 c']
      rw [ht]

/-! ### The text that `operator<<` writes -/

theorem output_eq_flatten (s : Store) :
    output s = (s.map (fun e => lineOf e ++ ['\n'])).flatten := by
  induction s with
  | nil => rfl
  | cons e rest ih =>
    rw [output_cons, ih]
    simp

theorem output_append (s1 s2 : Store) : output (s1 ++ s2) = output s1 ++ output s2 := by
  simp [output_eq_flatten]

/-! ### The loop with the stream state explicit -/

theorem readStream_not_good (fuel : Nat) (input : Str) (s : Store) :
    readStream fuel (ifstream.mk input false) s = s := by
  cases fuel <;> simp [readStream]

theorem readStream_good (fuel : Nat) (input : Str) (s : Store) :
    readStream fuel (ifstream.mk input true) s = readLoop fuel input s := by
  induction fuel generalizing input s with
  | zero => rfl
  | succ fuel ih =>
    simp only [readStream, readLoop, if_true]
    by_cases hg : (getline input).2.2 = true
    · simp only [hg, if_true]
      exact ih _ _
    · have hg' : (getline input).2.2 = false := by simpa using hg
      simp only [hg', Bool.false_eq_true, if_false]
      exact readStream_not_good _ _ _

/-- The member `Config::read` is the loop run on the stream that `open` leaves. -/
theorem read_eq_readStream (s : Store) (file : Option Str) :
    read s file = readStream ((file.getD []).length + 1) (ifstream_open file) s := by
  cases file with
  | none => simp [read, ifstream_open, readStream]
  | some content => simp [read, ifstream_open, readStream_good]

/-! ### Keys that begin with an upper-case letter -/

theorem keysUpper_put (s : Store) (k v : Str) (hs : KeysUpper s) (hk : startsUpper k = true) :
    KeysUpper (put k v s) := by
  intro e he
  rcases mem_put k v s e he with h | h
  · rw [h]; exact hk
  · exact hs e h

theorem keysUpper_mapInsert (s : Store) (k w : Str) (hs : KeysUpper s)
    (hk : startsUpper k = true ∨ «exists» s k = true) : KeysUpper (mapInsert k w s) := by
  cases h : lookup k s with
  | none =>
    rw [mapInsert_absent k w s h]
    rcases hk with hk | hk
    · exact keysUpper_put s k w hs hk
    · rw [exists_eq_true_iff] at hk
      obtain ⟨v, hv⟩ := hk
      rw [h] at hv
      cases hv
  | some v => rw [mapInsert_present k w v s h]; exact hs

theorem keysUpper_read (s : Store) (file : Option Str) (hs : KeysUpper s) :
    KeysUpper (read s file) := by
  cases file with
  | none => exact hs
  | some content =>
    rw [read_eq_foldl]
    exact foldl_processLine_inv (fun e => startsUpper e.1 = true) _ s hs
      (fun r _ kv hkv => parseLine_startsUpper r kv.1 kv.2 hkv)

/-! ### A second `=` -/

/-- The line rule on a line with a second `=`, when the first `=` is not directly
followed by another one: the value comes from the text between the two. -/
theorem parseLine_second_eq (a b rest : Str) (ha : '=' ∉ a) (hb : '=' ∉ b) (hne : b ≠ [])
    (hnul : Char.ofNat 0 ∉ a ++ '=' :: (b ++ '=' :: rest))
    (hkey : startsUpper (to_upper (trim a)) = true) :
    parseLine (a ++ '=' :: (b ++ '=' :: rest))
      = some (to_upper (trim a), trim (removeComment b)) := by
  have htr : trim_right (b ++ '=' :: rest) = b ++ '=' :: trim_right rest :=
    trim_right_append_cons b rest '=' (by decide)
  rw [parseLine_eq a _ ha hnul hkey (by
    intro c cs h hc
    rw [htr] at h
    cases b with
    | nil => exact hne rfl
    | cons d ds =>
      simp only [List.cons_append, List.cons.injEq] at h
      apply hb
      rw [h.1, hc]
      simp)]
  rw [htr]
  have e1 : (b ++ '=' :: trim_right rest).takeWhile (fun c => !decide (c = '=')) = b := by
    rw [List.takeWhile_append_of_pos (by
      intro c hc
      have : c ≠ '=' := fun h => hb (h ▸ hc)
      simpa using this)]
    simp [List.takeWhile_cons]
  rw [e1]

/-! ### Lines that are longer than the buffer -/

/-- The lines that `read` takes from a file are its lines up to and including the
first over-long one, each cut to the 1023 characters of the buffer. -/
theorem linesRead_eq_upToLong (f : Str) :
    linesRead f = (linesUpToLong (fileLines f)).map (List.take 1023) := by
  obtain ⟨n, hn⟩ : ∃ n, f.length = n := ⟨_, rfl⟩
  induction n using Nat.strong_induction_on generalizing f with
  | _ n ih =>
    rcases str_cases_newline f with hnl | ⟨line, rest, hnl, hf⟩
    · rw [fileLines_noNewline f hnl, linesRead_eq]
      have : linesUpToLong [f] = [f] := by
        simp only [linesUpToLong]
        split <;> rfl
      simp [this, getline, getlineAux_noNewline 1023 f hnl]
    · subst hf
      rw [fileLines_newline line rest hnl, linesRead_eq]
      by_cases hlen : line.length ≤ 1023
      · simp only [getline, getlineAux_newline 1023 line rest hnl hlen, if_true, linesUpToLong,
          hlen, List.map_cons]
        rw [ih rest.length (by rw [← hn]; simp; omega) rest rfl, List.take_of_length_le hlen]
      · simp [getline, getlineAux_long 1023 line rest hnl (by omega), linesUpToLong, hlen]

theorem linesUpToLong_short (ls : List Str) (h : ∀ l ∈ ls, l.length ≤ 1023) :
    linesUpToLong ls = ls := by
  induction ls with
  | nil => rfl
  | cons l ls ih =>
    simp [linesUpToLong, h l (by simp), ih (fun x hx => h x (by simp [hx]))]

theorem linesUpToLong_long (pre post : List Str) (long : Str)
    (hpre : ∀ l ∈ pre, l.length ≤ 1023) (hlong : 1023 < long.length) :
    linesUpToLong (pre ++ long :: post) = pre ++ [long] := by
  induction pre with
  | nil =>
    have : ¬ long.length ≤ 1023 := by omega
    simp [linesUpToLong, this]
  | cons l ls ih =>
    simp [linesUpToLong, hpre l (by simp), ih (fun x hx => hpre x (by simp [hx]))]

theorem linesUpToLong_subset (ls : List Str) : ∀ l ∈ linesUpToLong ls, l ∈ ls := by
  induction ls with
  | nil => simp [linesUpToLong]
  | cons l ls ih =>
    intro x hx
    simp only [linesUpToLong] at hx
    split at hx
    · rcases List.mem_cons.mp hx with h | h
      · simp [h]
      · exact List.mem_cons_of_mem _ (ih x h)
    · simp only [List.mem_singleton] at hx
      simp [hx]

theorem linesRead_from_fileLines (f r : Str) (hr : r ∈ linesRead f) :
    ∃ l ∈ fileLines f, r = l.take 1023 := by
  rw [linesRead_eq_upToLong, List.mem_map] at hr
  obtain ⟨l, hl, e⟩ := hr
  exact ⟨l, linesUpToLong_subset _ l hl, e.symm⟩

theorem map_take_short (ls : List Str) (h : ∀ l ∈ ls, l.length ≤ 1023) :
    ls.map (List.take 1023) = ls := by
  induction ls with
  | nil => rfl
  | cons l ls ih =>
    simp [List.take_of_length_le (h l (by simp)), ih (fun x hx => h x (by simp [hx]))]

/-! ### The effect of the loop on one key -/

theorem lookup_processLine (s : Store) (r k : Str) :
    lookup k (processLine s r)
      = match parseLine r with
        | some kv => if kv.1 = k then some kv.2 else lookup k s
        | none => lookup k s := by
  rw [processLine_eq]
  cases hp : parseLine r with
  | none => rfl
  | some kv =>
    by_cases e : kv.1 = k
    · simp only [e, if_true]
      rw [← e]; exact lookup_put_self _ _ _
    · simp only [e, if_false]
      exact lookup_put_ne _ _ k s (fun h => e h.symm)

/-- A key is either left alone by the lines, or it ends with a value that does not
depend on the store the loop started from. -/
theorem foldl_processLine_key (lines : List Str) (k : Str) :
    (∀ s, lookup k (lines.foldl processLine s) = lookup k s)
      ∨ ∃ v, ∀ s, lookup k (lines.foldl processLine s) = some v := by
  induction lines with
  | nil => left; intro s; rfl
  | cons r rs ih =>
    rcases ih with h | ⟨v, h⟩
    · cases hp : parseLine r with
      | none =>
        left
        intro s
        rw [List.foldl_cons, h, lookup_processLine, hp]
      | some kv =>
        by_cases e : kv.1 = k
        · right
          refine ⟨kv.2, fun s => ?_⟩
          rw [List.foldl_cons, h, lookup_processLine, hp]
          simp [e]
        · left
          intro s
          rw [List.foldl_cons, h, lookup_processLine, hp]
          simp [e]
    · right
      exact ⟨v, fun s => by rw [List.foldl_cons, h]⟩

theorem foldl_processLine_frame (lines : List Str) (s : Store) (k : Str)
    (hl : ∀ l ∈ lines, (parseLine l).map Prod.fst ≠ some k) :
    lookup k (lines.foldl processLine s) = lookup k s := by
  induction lines generalizing s with
  | nil => rfl
  | cons r rs ih =>
    rw [List.foldl_cons, ih _ (fun l h => hl l (by simp [h])), lookup_processLine]
    cases hp : parseLine r with
    | none => rfl
    | some kv =>
      have : kv.1 ≠ k := by
        intro e
        apply hl r (by simp)
        rw [hp, ← e]; rfl
      simp [this]

theorem foldl_processLine_exists (lines : List Str) (s : Store) (k : Str)
    (h : «exists» s k = true) : «exists» (lines.foldl processLine s) k = true := by
  induction lines generalizing s with
  | nil => exact h
  | cons r rs ih =>
    rw [List.foldl_cons]
    apply ih
    rw [exists_eq_true_iff] at h ⊢
    obtain ⟨v, hv⟩ := h
    rw [lookup_processLine]
    cases hp : parseLine r with
    | none => exact ⟨v, hv⟩
    | some kv =>
      by_cases e : kv.1 = k
      · exact ⟨kv.2, by simp [e]⟩
      · exact ⟨v, by simp [e, hv]⟩

/-! ### The key of a line and of its first characters -/

theorem splitFrom_ne_nil (p : Char → Bool) (flag : Bool) (l : Str) : splitFrom p flag l ≠ [] := by
  induction l generalizing flag with
  | nil => simp [splitFrom]
  | cons c cs ih =>
    simp only [splitFrom]
    split
    · split
      · exact ih true
      · simp
    · split <;> simp

theorem first_eq (t : Str) (h : '=' ∈ t) : ∃ x y, t = x ++ '=' :: y ∧ '=' ∉ x := by
  induction t with
  | nil => simp at h
  | cons c cs ih =>
    by_cases hc : c = '='
    · exact ⟨[], cs, by simp [hc], by simp⟩
    · have hcs : '=' ∈ cs := by
        rcases List.mem_cons.mp h with h | h
        · exact absurd h.symm hc
        · exact h
      obtain ⟨x, y, e, hx⟩ := ih hcs
      refine ⟨c :: x, y, by simp [e], ?_⟩
      intro hm
      rcases List.mem_cons.mp hm with hm | hm
      · exact hc hm.symm
      · exact hx hm

/-- A text that splits into two tokens or more is its first token, a `=`, and more. -/
theorem split_two (t s0 s1 : Str) (ts : List Str) (h : split t = s0 :: s1 :: ts) :
    ∃ y, t = s0 ++ '=' :: y ∧ '=' ∉ s0 := by
  by_cases hm : '=' ∈ t
  · obtain ⟨x, y, e, hx⟩ := first_eq t hm
    have hs : split t = x :: splitFrom (fun c => decide (c = '=')) true y := by
      unfold split
      rw [e, splitFrom_append_delim _ x y '=' (by
        intro c hc
        have : c ≠ '=' := fun h' => hx (h' ▸ hc)
        simpa using this) (by simp)]
    rw [hs] at h
    simp only [List.cons.injEq] at h
    exact ⟨y, by rw [← h.1]; exact e, by rw [← h.1]; exact hx⟩
  · rw [split_no_eq t hm] at h
    simp at h

/-- The key that the line rule gives depends on the text before the first `=` only. -/
theorem parseLine_key (line a b : Str) (hc : cstr line = a ++ '=' :: b) (ha : '=' ∉ a)
    (hkey : startsUpper (to_upper (trim a)) = true) :
    ∃ v, parseLine line = some (to_upper (trim a), v) := by
  obtain ⟨ws, c, rest, e, h1, h2⟩ := isspace_false_of_startsUpper a hkey
  have hl : trim (cstr line) = (c :: rest) ++ '=' :: trim_right b := by
    rw [hc, e]
    have : ws ++ c :: rest ++ '=' :: b = ws ++ c :: (rest ++ '=' :: b) := by simp
    rw [this, trim_spaces_cons ws _ c h1 h2, trim_right_append_cons rest b '=' (by decide)]
    simp
  have ha' : '=' ∉ c :: rest := by
    intro hmem
    apply ha
    rw [e]
    exact List.mem_append_right _ hmem
  have hs : split (trim (cstr line))
      = (c :: rest) :: splitFrom (fun c => decide (c = '=')) true (trim_right b) := by
    rw [hl]
    unfold split
    rw [splitFrom_append_delim _ (c :: rest) _ '=' (by
      intro x hx
      have : x ≠ '=' := fun h' => ha' (h' ▸ hx)
      simpa using this) (by simp)]
  cases hsp : splitFrom (fun c => decide (c = '=')) true (trim_right b) with
  | nil => exact absurd hsp (splitFrom_ne_nil _ _ _)
  | cons t1 ts =>
    rw [hsp] at hs
    have hk : to_upper (trim (c :: rest)) = to_upper (trim a) := by
      rw [e, trim_spaces_cons ws rest c h1 h2, trim_cons rest c h2]
    cases hk2 : to_upper (trim a) with
    | nil => rw [hk2] at hkey; simp [startsUpper] at hkey
    | cons c0 k0 =>
      rw [hk2] at hk hkey
      exact ⟨_, parseLine_of_split _ _ _ ts c0 k0 hs hk hkey⟩

theorem cstr_take (l : Str) (n : Nat) : cstr (l.take n) = (cstr l).take n := by
  unfold cstr
  induction l generalizing n with
  | nil => simp
  | cons c cs ih =>
    cases n with
    | zero => simp
    | succ n =>
      by_cases hc : c = Char.ofNat 0
      · simp [List.takeWhile_cons, hc]
      · simpa [List.takeWhile_cons, hc] using ih n

/-- A key that the first `n` characters of a line yield is the key that the whole line
yields. -/
theorem parseLine_take (l k v : Str) (n : Nat) (h : parseLine (l.take n) = some (k, v)) :
    ∃ w, parseLine l = some (k, w) := by
  obtain ⟨s0, s1, ts, hs, hk, _, hu⟩ := parseLine_inv _ k v h
  rw [cstr_take] at hs
  rcases spaces_or_first ((cstr l).take n) with hsp | ⟨ws, c, m, e, h1, h2⟩
  · rw [trim_all_spaces _ hsp] at hs
    simp [split, splitFrom] at hs
  · rw [e, trim_spaces_cons ws m c h1 h2] at hs
    obtain ⟨y, ey, hs0⟩ := split_two _ s0 s1 ts hs
    cases s0 with
    | nil =>
      rw [hk] at hu
      simp [trim, trim_left, trim_right, to_upper, startsUpper, List.rdropWhile_nil] at hu
    | cons c' s0' =>
      simp only [List.cons_append, List.cons.injEq] at ey
      obtain ⟨ec, em⟩ := ey
      subst ec
      obtain ⟨ws2, hws2⟩ : ∃ ws2, trim_right m ++ ws2 = m := List.rdropWhile_prefix isspace m
      have hL : cstr l = (ws ++ c :: s0') ++ '=' :: (y ++ ws2 ++ (cstr l).drop n) := by
        conv_lhs => rw [← List.take_append_drop n (cstr l), e, ← hws2, em]
        simp
      have hkk : to_upper (trim (ws ++ c :: s0')) = k := by
        rw [hk, trim_spaces_cons ws s0' c h1 h2, trim_cons s0' c h2]
      have ha : '=' ∉ ws ++ c :: s0' := by
        intro hm
        rcases List.mem_append.mp hm with hm | hm
        · have := h1 _ hm
          revert this
          decide
        · exact hs0 hm
      obtain ⟨w, hw⟩ := parseLine_key l _ _ hL ha (by rw [hkk]; exact hu)
      rw [hkk] at hw
      exact ⟨w, hw⟩

/-! ### Lines after the last line of a key -/

theorem linesUpToLong_append (pre post : List Str) (hpre : ∀ l ∈ pre, l.length ≤ 1023) :
    linesUpToLong (pre ++ post) = pre ++ linesUpToLong post := by
  induction pre with
  | nil => rfl
  | cons l ls ih =>
    simp [linesUpToLong, hpre l (by simp), ih (fun x hx => hpre x (by simp [hx]))]

/-- What the loop makes of lines that do not yield the key `k` does not yield it either:
the first 1023 characters of a line give no key that the whole line does not give. -/
theorem linesUpToLong_take_key (post : List Str) (k : Str)
    (hlast : ∀ l ∈ post, (parseLine l).map Prod.fst ≠ some k) :
    ∀ r ∈ (linesUpToLong post).map (List.take 1023),
      (parseLine r).map Prod.fst ≠ some k := by
  intro r hr hk
  rw [List.mem_map] at hr
  obtain ⟨l, hl, e⟩ := hr
  subst e
  cases hp : parseLine (List.take 1023 l) with
  | none => rw [hp] at hk; simp at hk
  | some kv =>
    obtain ⟨k1, v1⟩ := kv
    rw [hp] at hk
    simp only [Option.map_some', Option.some.injEq] at hk
    subst hk
    obtain ⟨w, hw⟩ := parseLine_take l k1 v1 1023 hp
    apply hlast l (linesUpToLong_subset post l hl)
    rw [hw]
    rfl

/-- The line `A=` followed by `n` characters `x` passes the line rule with these
characters as its value. -/
theorem parseLine_A_replicate_x (n : Nat) :
    parseLine ("A=".toList ++ List.replicate n 'x') = some ("A".toList, List.replicate n 'x') := by
  have e : "A=".toList ++ List.replicate n 'x' = "A".toList ++ '=' :: List.replicate n 'x' :=
    rfl
  rw [e, parseLine_well_formed "A".toList _ (by decide) (not_mem_replicate _ _ _ (by decide))
    (not_mem_replicate _ _ _ (by decide)) ?_ (by decide), trim_replicate_x]
  · rfl
  · intro hm
    simp only [String.toList, List.mem_append, List.mem_cons] at hm
    rcases hm with hm | hm | hm
    · revert hm; decide
    · revert hm; decide
    · exact not_mem_replicate _ _ _ (by decide) hm

end Config

/-! ### The generated accessor on a stored value -/

/-- When the attached store holds the string `v` under `param_name`, the generated
accessor hands on what `lexical_cast<int>` makes of `v`, a value or the exception, and
leaves the object as it is; the default is not used. -/
theorem TBD_PROPERTY_CFG_stored (P : Str) (D : Int) (s : Store) (name v : Str)
    (hstored : Config.lookup P s = some v) :
    TBD_PROPERTY_CFG P D (ConfigurableObject.mk (some s) name)
      = (lexical_cast_int v, ConfigurableObject.mk (some s) name) := by
  have hex : Config.«exists» s P = true := by
    rw [Config.exists_eq_true_iff]; exact ⟨v, hstored⟩
  have hsub : Config.subscript P s = s := Config.mapInsert_present P [] v s hstored
  simp [TBD_PROPERTY_CFG, ConfigurableObject.config, hex, Config.get_int, hsub,
    Config.valueAt, hstored]

end tbd

/-! # The claims -/

namespace tbd

namespace Config

/-! ## C1 -/

/-- C1 as stated fails on a value that fills the line: the file is the single line
`A=` followed by 1021 characters `x` (1023 characters, no `#`), which passes the line
rule. `read` stores the
1021 characters under `A`, `write` emits `A = ` followed by them (1025 characters), and
reading that back keeps only the first 1023 characters of the line: the value has 1019
characters, so the store read back differs. -/
theorem round_trip_counterexample :
    '#' ∉ "A".toList ++ '=' :: List.replicate 1021 'x'
    ∧ '\n' ∉ "A".toList ++ '=' :: List.replicate 1021 'x'
    ∧ fileLines ("A".toList ++ '=' :: List.replicate 1021 'x')
        = ["A".toList ++ '=' :: List.replicate 1021 'x']
    ∧ ("A".toList ++ '=' :: List.replicate 1021 'x').length = 1023
    ∧ parseLine ("A".toList ++ '=' :: List.replicate 1021 'x')
        = some ("A".toList, List.replicate 1021 'x')
    ∧ read [] (some ("A".toList ++ '=' :: List.replicate 1021 'x'))
        = [("A".toList, List.replicate 1021 'x')]
    ∧ read [] (some (write (read [] (some ("A".toList ++ '=' :: List.replicate 1021 'x')))))
        = [("A".toList, List.replicate 1019 'x')]
    ∧ read [] (some (write (read [] (some ("A".toList ++ '=' :: List.replicate 1021 'x')))))
        ≠ read [] (some ("A".toList ++ '=' :: List.replicate 1021 'x')) := by
  have hnl : ∀ n, '\n' ∉ "A".toList ++ '=' :: List.replicate n 'x' := by
    intro n hm
    simp only [String.toList, List.mem_append, List.mem_cons] at hm
    rcases hm with hm | hm | hm
    · revert hm; decide
    · revert hm; decide
    · exact not_mem_replicate _ _ _ (by decide) hm
  have hlen : ("A".toList ++ '=' :: List.replicate 1021 'x').length = 1023 := by
    rw [List.length_append, List.length_cons, List.length_replicate]
    rfl
  have hparse : parseLine ("A".toList ++ '=' :: List.replicate 1021 'x')
      = some ("A".toList, List.replicate 1021 'x') := by
    rw [parseLine_well_formed "A".toList _ (by decide) (not_mem_replicate _ _ _ (by decide))
      (not_mem_replicate _ _ _ (by decide)) ?_ (by decide), trim_replicate_x]
    · rfl
    · intro hm
      simp only [String.toList, List.mem_append, List.mem_cons] at hm
      rcases hm with hm | hm | hm
      · revert hm; decide
      · revert hm; decide
      · exact not_mem_replicate _ _ _ (by decide) hm
  have hread : read [] (some ("A".toList ++ '=' :: List.replicate 1021 'x'))
      = [("A".toList, List.replicate 1021 'x')] := by
    rw [read_single [] _ (hnl 1021), List.take_of_length_le (by rw [hlen]), processLine_eq,
      hparse]
    rfl
  have hback : read [] (some (write [("A".toList, List.replicate 1021 'x')]))
      = [("A".toList, List.replicate 1019 'x')] := by
    have hw : ∀ v : Str, write [("A".toList, v)]
        = ("A ".toList ++ '=' :: (' ' :: v)) ++ ['\n'] := by
      intro v
      simp [write, output]
    have hnl2 : '\n' ∉ "A ".toList ++ '=' :: (' ' :: List.replicate 1021 'x') := by
      intro hm
      simp only [String.toList, List.mem_append, List.mem_cons] at hm
      rcases hm with hm | hm | hm | hm
      · revert hm; decide
      · revert hm; decide
      · revert hm; decide
      · exact not_mem_replicate _ _ _ (by decide) hm
    have htake : List.take 1023 ("A ".toList ++ '=' :: (' ' :: List.replicate 1021 'x'))
        = "A ".toList ++ '=' :: (' ' :: List.replicate 1019 'x') := by
      have e : "A ".toList ++ '=' :: (' ' :: List.replicate 1021 'x')
          = "A = ".toList ++ List.replicate 1021 'x' := rfl
      have e2 : (1023 : Nat) = "A = ".toList.length + 1019 := rfl
      rw [e, e2, List.take_append, List.take_replicate]
      rfl
    rw [hw _, read_single_newline [] _ hnl2, htake, processLine_eq,
      parseLine_well_formed "A ".toList _ (by decide) ?_ ?_ ?_ (by decide)]
    · have : trim (' ' :: List.replicate 1019 'x') = List.replicate 1019 'x' :=
        trim_space_cons _ (trim_replicate_x 1019)
      rw [this]
      rfl
    · intro hm
      rcases List.mem_cons.mp hm with hm | hm
      · revert hm; decide
      · exact not_mem_replicate _ _ _ (by decide) hm
    · intro hm
      rcases List.mem_cons.mp hm with hm | hm
      · revert hm; decide
      · exact not_mem_replicate _ _ _ (by decide) hm
    · intro hm
      simp only [String.toList, List.mem_append, List.mem_cons] at hm
      rcases hm with hm | hm | hm | hm
      · revert hm; decide
      · revert hm; decide
      · revert hm; decide
      · exact not_mem_replicate _ _ _ (by decide) hm
  refine ⟨?_, hnl 1021, fileLines_noNewline _ (hnl 1021), hlen, hparse, hread,
    by rw [hread]; exact hback, ?_⟩
  · intro hm
    simp only [String.toList, List.mem_append, List.mem_cons] at hm
    rcases hm with hm | hm | hm
    · revert hm; decide
    · revert hm; decide
    · exact not_mem_replicate _ _ _ (by decide) hm
  · rw [hread, hback]
    intro h
    simp only [List.cons.injEq, Prod.mk.injEq, and_true, true_and] at h
    have h2 := congrArg List.length h
    rw [List.length_replicate, List.length_replicate] at h2
    exact absurd h2 (by decide)

/-- C1 (amended): for every file content that contains no `#`, let `S` be the store
obtained by reading it into an empty store; if every line that `write` emits for `S`
has at most 1023 characters, then reading the written text into an empty store yields
exactly `S`. -/
theorem write_read_round_trip (f : Str) (hhash : '#' ∉ f)
    (hfit : ∀ e ∈ read [] (some f), (lineOf e).length ≤ 1023) :
    read [] (some (write (read [] (some f)))) = read [] (some f) := by
  have hord : Ordered (read [] (some f)) := by
    rw [read_eq_foldl]
    exact foldl_processLine_ordered _ [] (by simp [Ordered])
  have hok : ∀ e ∈ read [] (some f), EntryOK e := by
    rw [read_eq_foldl]
    apply foldl_processLine_inv EntryOK
    · simp
    · intro r hr kv hkv
      obtain ⟨h1, _, h3⟩ := linesRead_record f r hr
      exact parseLine_entryOK r kv.1 kv.2 hkv h1 (fun hm => hhash (h3 _ hm))
  exact read_output _ hord hok hfit

/-- Witness of C1 (amended): a file with a duplicate key, a key in lower case and lines
in descending key order. -/
theorem write_read_round_trip_witness :
    read [] (some (write (read [] (some "b = 2\nA=1\nb=3\n".toList))))
      = read [] (some "b = 2\nA=1\nb=3\n".toList) :=
  write_read_round_trip "b = 2\nA=1\nb=3\n".toList (by decide) (by decide)

/-! ## C2 -/

/-- C2 as stated fails on a file with an over-long line, in two ways. In the file with
the lines `A=1`, a line of 1024 characters `x`, and `A=2`, the last line that produces
the key `A` is `A=2`, but after `read` the value stored under `A` is `1`: the lines
after the over-long one are not read. In the file with the lines `A=0` and `A=` followed
by 1022 characters `x` (1024 characters), the last line that produces the key `A` has
the 1022 characters as its value, but after `read` the value stored under `A` has 1021
characters: the over-long line is cut. -/
theorem last_value_wins_counterexample :
    (fileLines ("A=1".toList ++ '\n' :: (List.replicate 1024 'x' ++ '\n' :: "A=2\n".toList))
      = ["A=1".toList, List.replicate 1024 'x'] ++ "A=2".toList :: [[]]
    ∧ parseLine "A=1".toList = some ("A".toList, "1".toList)
    ∧ parseLine "A=2".toList = some ("A".toList, "2".toList)
    ∧ parseLine [] = none
    ∧ lookup "A".toList (read []
        (some ("A=1".toList ++ '\n' :: (List.replicate 1024 'x' ++ '\n' :: "A=2\n".toList))))
        = some "1".toList
    ∧ some "1".toList ≠ some "2".toList)
    ∧ (fileLines ("A=0".toList ++ '\n' :: ("A=".toList ++ List.replicate 1022 'x'))
      = ["A=0".toList, "A=".toList ++ List.replicate 1022 'x']
    ∧ parseLine "A=0".toList = some ("A".toList, "0".toList)
    ∧ parseLine ("A=".toList ++ List.replicate 1022 'x')
        = some ("A".toList, List.replicate 1022 'x')
    ∧ lookup "A".toList (read []
        (some ("A=0".toList ++ '\n' :: ("A=".toList ++ List.replicate 1022 'x'))))
        = some (List.replicate 1021 'x')
    ∧ List.replicate 1021 'x' ≠ List.replicate 1022 'x') := by
  have hx : '\n' ∉ List.replicate 1024 'x' := not_mem_replicate _ _ _ (by decide)
  have h1 : '\n' ∉ "A=1".toList := by decide
  have hnl : '\n' ∉ "A=".toList ++ List.replicate 1022 'x' := by
    intro hm
    simp only [String.toList, List.mem_append, List.mem_cons] at hm
    rcases hm with hm | hm
    · revert hm; decide
    · exact not_mem_replicate _ _ _ (by decide) hm
  have hlines : fileLines ("A=0".toList ++ '\n' :: ("A=".toList ++ List.replicate 1022 'x'))
      = ["A=0".toList, "A=".toList ++ List.replicate 1022 'x'] := by
    rw [fileLines_newline _ _ (by decide), fileLines_noNewline _ hnl]
  have hlong : 1023 < ("A=".toList ++ List.replicate 1022 'x').length := by
    rw [List.length_append, List.length_replicate]
    decide
  have htake : List.take 1023 ("A=".toList ++ List.replicate 1022 'x')
      = "A=".toList ++ List.replicate 1021 'x' := by
    have e2 : (1023 : Nat) = "A=".toList.length + 1021 := rfl
    rw [e2, List.take_append, List.take_replicate]
    rfl
  refine ⟨⟨?_, by decide, by decide, by decide, ?_, by decide⟩,
    ⟨hlines, by decide, parseLine_A_replicate_x 1022, ?_, ?_⟩⟩
  · rw [fileLines_newline _ _ h1, fileLines_newline _ _ hx]
    have : fileLines "A=2\n".toList = ["A=2".toList, []] := by decide
    rw [this]
    rfl
  · rw [read_eq_foldl, linesRead_eq]
    simp only [getline, getlineAux_newline 1023 _ _ h1 (by decide), if_true]
    rw [linesRead_eq]
    simp only [getline, getlineAux_long 1023 _ _ hx (by rw [List.length_replicate]; decide),
      Bool.false_eq_true, if_false]
    simp only [List.foldl_cons, List.foldl_nil]
    rw [processLine_eq _ (List.take 1023 _),
      parseLine_skip (List.replicate 1024 'x') 1023
        (Or.inr (Or.inr (not_mem_replicate _ _ _ (by decide))))]
    decide
  · rw [read_eq_foldl, linesRead_eq_upToLong, hlines]
    have e : ["A=0".toList, "A=".toList ++ List.replicate 1022 'x']
        = ["A=0".toList] ++ ("A=".toList ++ List.replicate 1022 'x') :: [] := rfl
    rw [e, linesUpToLong_long _ _ _ (by decide) hlong]
    simp only [List.map_append, List.map_cons, List.map_nil, List.foldl_append,
      List.foldl_cons, List.foldl_nil]
    rw [htake, processLine_eq _ ("A=".toList ++ List.replicate 1021 'x'),
      parseLine_A_replicate_x 1021]
    exact lookup_put_self _ _ _
  · intro h
    have h2 := congrArg List.length h
    rw [List.length_replicate, List.length_replicate] at h2
    exact absurd h2 (by decide)

/-- C2 (amended): when `line` is the last line of the file that the line rule turns
into the key `k` (no line of `post` yields `k`), say with the value `v`, and neither
`line` nor a line before it has more than 1023 characters, then after `read`, into any
store, the value stored under `k` is `v`. The lines after `line` may have any length. -/
theorem read_last_value_wins (s : Store) (f : Str) (pre post : List Str) (line k v : Str)
    (hshort : ∀ l ∈ pre ++ [line], l.length ≤ 1023)
    (hf : fileLines f = pre ++ line :: post)
    (hline : parseLine line = some (k, v))
    (hlast : ∀ l ∈ post, (parseLine l).map Prod.fst ≠ some k) :
    lookup k (read s (some f)) = some v := by
  have e : pre ++ line :: post = (pre ++ [line]) ++ post := by simp
  rw [read_eq_foldl, linesRead_eq_upToLong, hf, e, linesUpToLong_append _ _ hshort,
    List.map_append, map_take_short _ hshort, List.append_assoc, List.singleton_append]
  exact foldl_processLine_last s pre _ line k v hline (linesUpToLong_take_key post k hlast)

/-- Witness of C2 (amended): the key `A` is given three times, and a line of 1024
characters follows the last of them. -/
theorem read_last_value_wins_witness :
    lookup "A".toList (read [("A".toList, "0".toList)]
        (some ("A=1\nb=2\na = 3\n".toList ++ (List.replicate 1024 'x' ++ "\nc=4".toList))))
      = some "3".toList := by
  have hx : '\n' ∉ List.replicate 1024 'x' := not_mem_replicate _ _ _ (by decide)
  refine read_last_value_wins [("A".toList, "0".toList)] _
    ["A=1".toList, "b=2".toList] [List.replicate 1024 'x', "c=4".toList] "a = 3".toList
    "A".toList "3".toList (by decide) ?_ (by decide) ?_
  · have e : "A=1\nb=2\na = 3\n".toList ++ (List.replicate 1024 'x' ++ "\nc=4".toList)
        = "A=1".toList ++ '\n' :: ("b=2".toList ++ '\n' :: ("a = 3".toList ++ '\n' ::
            (List.replicate 1024 'x' ++ '\n' :: "c=4".toList))) := rfl
    rw [e, fileLines_newline _ _ (by decide), fileLines_newline _ _ (by decide),
      fileLines_newline _ _ (by decide), fileLines_newline _ _ hx]
    rfl
  · intro l hl
    simp only [List.mem_cons, List.mem_singleton, List.not_mem_nil, or_false] at hl
    rcases hl with h | h
    · have hp := parseLine_skip (List.replicate 1024 'x') 1024
        (Or.inr (Or.inr (not_mem_replicate _ _ _ (by decide))))
      rw [List.take_of_length_le (by rw [List.length_replicate])] at hp
      rw [h, hp]
      simp
    · rw [h]; decide

/-! ## C3 -/

/-- C3: a line of at most 1023 characters (a line of text: no newline, no NUL) with
exactly one `=` and no `#`, whose text `a` before the `=` is, once trimmed and
upper-cased, not empty and begins with `A`-`Z`, is stored by `read` under that trimmed,
upper-cased text with the trimmed text `b` after the `=` as value, whatever the store
held, and no other key changes; the file is the line with or without its newline.
So `port = 80` is stored as `PORT` with value `80`, and `exists("port")` stays false. -/
theorem read_stores_well_formed_line (s : Store) (a b : Str)
    (hlen : (a ++ '=' :: b).length ≤ 1023)
    (hnl : '\n' ∉ a ++ '=' :: b) (hnul : Char.ofNat 0 ∉ a ++ '=' :: b)
    (ha : '=' ∉ a) (hb : '=' ∉ b) (hhash : '#' ∉ a ++ '=' :: b)
    (hkey : startsUpper (to_upper (trim a)) = true) :
    (∀ file, file = a ++ '=' :: b ∨ file = (a ++ '=' :: b) ++ ['\n'] →
      lookup (to_upper (trim a)) (read s (some file)) = some (trim b)
      ∧ ∀ k, k ≠ to_upper (trim a) → lookup k (read s (some file)) = lookup k s)
    ∧ read [] (some "port = 80".toList) = [("PORT".toList, "80".toList)]
    ∧ «exists» (read [] (some "port = 80".toList)) "port".toList = false := by
  refine ⟨?_, by decide, by decide⟩
  have hb' : '#' ∉ b := fun h => hhash (by simp [h])
  have hp := parseLine_well_formed a b ha hb hb' hnul hkey
  have hr : ∀ file, file = a ++ '=' :: b ∨ file = (a ++ '=' :: b) ++ ['\n'] →
      read s (some file) = put (to_upper (trim a)) (trim b) s := by
    intro file hf
    rcases hf with hf | hf
    · rw [hf, read_single s _ hnl, List.take_of_length_le hlen, processLine_eq, hp]
    · rw [hf, read_single_newline s _ hnl, List.take_of_length_le hlen, processLine_eq, hp]
  intro file hf
  rw [hr file hf]
  exact ⟨lookup_put_self _ _ _, fun k hk => lookup_put_ne _ _ k s hk⟩

/-- Witness of C3: the line `port = 80`. -/
theorem read_stores_well_formed_line_witness :
    lookup "PORT".toList (read [("A".toList, "1".toList)] (some "port = 80\n".toList))
      = some "80".toList :=
  ((read_stores_well_formed_line [("A".toList, "1".toList)] "port ".toList " 80".toList
    (by decide) (by decide) (by decide) (by decide) (by decide) (by decide) (by decide)).1
    "port = 80\n".toList (Or.inr (by decide))).1

/-! ## C4 -/

/-- C4: after `read` into an empty store (of any file, also one that cannot be opened)
`exists(key)` is false for every key that is empty or whose first character is not in
`A`-`Z`; the lines `1x=5` and `_k=5` leave every store as it was. -/
theorem read_never_loads_non_upper_key (file : Option Str) (key : Str)
    (hkey : ∀ c cs, key = c :: cs → ¬ (65 ≤ c.toNat ∧ c.toNat ≤ 90)) :
    «exists» (read [] file) key = false
    ∧ (∀ s, read s (some "1x=5".toList) = s) ∧ (∀ s, read s (some "_k=5".toList) = s) := by
  refine ⟨?_, ?_, ?_⟩
  · have hinv : ∀ e ∈ read [] file, startsUpper e.1 = true := by
      cases file with
      | none => simp [read]
      | some content =>
        rw [read_eq_foldl]
        apply foldl_processLine_inv (fun e => startsUpper e.1 = true)
        · simp
        · intro r _ kv hkv
          exact parseLine_startsUpper r kv.1 kv.2 hkv
    rw [exists_eq_false_iff]
    cases hl : lookup key (read [] file) with
    | none => rfl
    | some v =>
      exfalso
      have hu := hinv _ (lookup_mem key v _ hl)
      cases key with
      | nil => simp [startsUpper] at hu
      | cons c cs =>
        simp only [startsUpper, Bool.and_eq_true, decide_eq_true_eq] at hu
        exact hkey c cs rfl hu
  · intro s
    rw [read_single s _ (by decide), processLine_eq]
    have : parseLine ("1x=5".toList.take 1023) = none := by decide
    rw [this]
  · intro s
    rw [read_single s _ (by decide), processLine_eq]
    have : parseLine ("_k=5".toList.take 1023) = none := by decide
    rw [this]

/-- Witness of C4: the key `_k` after reading a file with the line `_k=5`. -/
theorem read_never_loads_non_upper_key_witness :
    «exists» (read [] (some "A=1\n_k=5\n".toList)) "_k".toList = false :=
  (read_never_loads_non_upper_key (some "A=1\n_k=5\n".toList) "_k".toList
    (by intro c cs h; cases h; decide)).1

/-! ## C5 -/

/-- C5: a line (no newline in it) that, once trimmed, is empty or begins with `#`, or
that has no `=`, is ignored: reading the file that consists of it, with or without its
newline, leaves every store exactly as it was. -/
theorem read_ignores_skipped_line (s : Store) (line : Str) (hline : '\n' ∉ line)
    (h : trim line = [] ∨ (trim line).head? = some '#' ∨ '=' ∉ line) :
    read s (some line) = s ∧ read s (some (line ++ ['\n'])) = s := by
  have hp := parseLine_skip line 1023 h
  constructor
  · rw [read_single s line hline, processLine_eq, hp]
  · rw [read_single_newline s line hline, processLine_eq, hp]

/-- Witness of C5: a comment line that contains a `=`. -/
theorem read_ignores_skipped_line_witness :
    read [("A".toList, "1".toList)] (some "  # B = 2".toList) = [("A".toList, "1".toList)] :=
  (read_ignores_skipped_line [("A".toList, "1".toList)] "  # B = 2".toList (by decide)
    (Or.inr (Or.inl (by decide)))).1

/-! ## C6 -/

/-- C6 as stated fails on a line with a second `=` before the `#`: in `A=1=2 #c` the
text after the first `=` is `1=2 #c`, with its first `#` at index 4; its first 3
characters, trimmed, are `1=2`, but the value stored under `A` is `1`. -/
theorem comment_cut_after_first_eq_counterexample :
    '=' ∉ "A".toList
    ∧ find "1=2 #c".toList '#' = 4
    ∧ trim ("1=2 #c".toList.take (4 - 1)) = "1=2".toList
    ∧ lookup "A".toList (read [] (some ("A".toList ++ '=' :: "1=2 #c".toList)))
        = some "1".toList
    ∧ lookup "A".toList (read [] (some ("A".toList ++ '=' :: "1=2 #c".toList)))
        ≠ some (trim ("1=2 #c".toList.take (find "1=2 #c".toList '#' - 1))) := by
  decide

/-- C6 (amended): take a line of at most 1023 characters (a line of text: no newline,
no NUL) that passes the key test, `a` being its text before the first `=`. If the text
after the first `=` is `b1 ++ '#' :: b2` with no `#` and no `=` in `b1`, so that its
first `#` is at index `p = b1.length`, and `p >= 1`, then the value stored is the first
`p - 1` characters of that text, trimmed: the character before the `#` is dropped as
well. For the line `VAL = 10 # comment` the stored value of `VAL` is exactly `10`. -/
theorem read_comment_cut (s : Store) (a b1 b2 : Str)
    (hlen : (a ++ '=' :: (b1 ++ '#' :: b2)).length ≤ 1023)
    (hnl : '\n' ∉ a ++ '=' :: (b1 ++ '#' :: b2))
    (hnul : Char.ofNat 0 ∉ a ++ '=' :: (b1 ++ '#' :: b2))
    (ha : '=' ∉ a) (hkey : startsUpper (to_upper (trim a)) = true)
    (hh1 : '#' ∉ b1) (hb1 : '=' ∉ b1) (hp : 1 ≤ b1.length) :
    find (b1 ++ '#' :: b2) '#' = b1.length
    ∧ (∀ file, file = a ++ '=' :: (b1 ++ '#' :: b2)
          ∨ file = (a ++ '=' :: (b1 ++ '#' :: b2)) ++ ['\n'] →
        lookup (to_upper (trim a)) (read s (some file))
          = some (trim ((b1 ++ '#' :: b2).take (find (b1 ++ '#' :: b2) '#' - 1))))
    ∧ read [] (some "VAL = 10 # comment".toList) = [("VAL".toList, "10".toList)] := by
  have hf : find (b1 ++ '#' :: b2) '#' = b1.length := by
    simp [find, findIdx_first b1 b2 '#' hh1]
  refine ⟨hf, ?_, by decide⟩
  have hp1 := parseLine_comment a b1 b2 ha hb1 hh1 hp hlen hnul hkey
  intro file hfile
  rw [hf, List.take_append_of_le_length (by omega)]
  rcases hfile with e | e
  · rw [e, read_single s _ hnl, List.take_of_length_le hlen, processLine_eq, hp1]
    exact lookup_put_self _ _ _
  · rw [e, read_single_newline s _ hnl, List.take_of_length_le hlen, processLine_eq, hp1]
    exact lookup_put_self _ _ _

/-- Witness of C6 (amended): the line `VAL = 10 # comment`. -/
theorem read_comment_cut_witness :
    lookup "VAL".toList (read [] (some "VAL = 10 # comment".toList)) = some "10".toList :=
  (read_comment_cut [] "VAL ".toList " 10 ".toList " comment".toList
    (by decide) (by decide) (by decide) (by decide) (by decide) (by decide) (by decide)
    (by decide)).2.1 "VAL = 10 # comment".toList (Or.inl (by decide))

/-! ## C7 -/

/-- C7 (evaluation of the code): when the `#` directly follows the `=`, `commentPos` is
0, `commentPos-1` wraps around to `npos` and `substr` keeps the whole text: the value
stored for the line `A=#x` is `#x`, which contains a `#`. -/
theorem read_keeps_hash_at_start :
    read [] (some "A=#x".toList) = [("A".toList, "#x".toList)]
    ∧ '#' ∈ "#x".toList := by
  decide

/-! ## C8 -/

/-- C8 (evaluation of the code): on the empty store `get<int>("MISSING")` does not
return 0: `lexical_cast<int>` of the empty string throws `bad_lexical_cast`, after
`operator[]` has added the key; the same happens for a stored text that is no number. -/
theorem get_int_throws :
    get_int [] "MISSING".toList
      = (Except.error Exception.bad_lexical_cast, [("MISSING".toList, [])])
    ∧ (get_int [("K".toList, "abc".toList)] "K".toList).1
      = Except.error Exception.bad_lexical_cast :=
  ⟨rfl, rfl⟩

/-! ## C9 -/

/-- C9: for every store and every key absent from it, `get<std::string>(key)` returns
the empty string. -/
theorem get_string_absent (s : Store) (key : Str) (h : «exists» s key = false) :
    (get_string s key).1 = Except.ok [] := by
  rw [exists_eq_false_iff] at h
  simp [get_string, lexical_cast_str, valueAt, subscript, lookup_mapInsert_self, h]

/-- Witness of C9: the key `MISSING` in a store that holds another key. -/
theorem get_string_absent_witness :
    (get_string [("A".toList, "1".toList)] "MISSING".toList).1 = Except.ok [] :=
  get_string_absent [("A".toList, "1".toList)] "MISSING".toList (by decide)

/-! ## C10 -/

/-- C10: for every store, key `k` and `int` `n`, after `set<int>(k, n)` the key exists,
the stored string is the decimal text of `n`, and `get<int>(k)` returns `n` and leaves
the store as it is, whatever `k` held before. The decimal text of 8080 is `8080`, that
of -17 is `-17`. -/
theorem set_int_then_get_int (s : Store) (k : Str) (n : Int)
    (hmin : INT_MIN ≤ n) (hmax : n ≤ INT_MAX) :
    «exists» (set_int s k n) k = true
    ∧ lookup k (set_int s k n) = some (lexical_cast_string n)
    ∧ get_int (set_int s k n) k = (Except.ok n, set_int s k n)
    ∧ lexical_cast_string 8080 = "8080".toList ∧ lexical_cast_string (-17) = "-17".toList := by
  have hl : lookup k (set_int s k n) = some (lexical_cast_string n) := by
    rw [set_int_eq_put]; exact lookup_put_self _ _ _
  refine ⟨?_, hl, ?_, by decide, by decide⟩
  · rw [exists_eq_true_iff]; exact ⟨_, hl⟩
  · have hsub : subscript k (set_int s k n) = set_int s k n := by
      rw [set_int_eq_put]
      exact mapInsert_put k (lexical_cast_string n) [] s
    simp only [get_int, hsub, valueAt, hl, Option.getD_some]
    rw [lexical_cast_int_string n hmin hmax]

/-- Witness of C10: the value 8080 over a text that is no number. -/
theorem set_int_then_get_int_witness :
    get_int (set_int [("PORT".toList, "x".toList)] "PORT".toList 8080) "PORT".toList
      = (Except.ok 8080, set_int [("PORT".toList, "x".toList)] "PORT".toList 8080) :=
  (set_int_then_get_int [("PORT".toList, "x".toList)] "PORT".toList 8080
    (by decide) (by decide)).2.2.1

/-! ## C11 -/

/-- C11: for every state `s` of a `Config`, the text that `operator<<` produces, and
so the file that `write` leaves, is exactly the line `KEY = VALUE` followed by a
newline for each entry of the store, in the order of the store, which is strictly
ascending key order, and nothing else; the empty store gives the empty text. -/
theorem output_format_and_order (s : Store) (h : Reachable s) :
    output s = (s.map (fun e => e.1 ++ " = ".toList ++ e.2 ++ "\n".toList)).flatten
    ∧ s.Pairwise (fun a b => strLt a.1 b.1 = true)
    ∧ write s = output s
    ∧ output [] = [] := by
  refine ⟨?_, reachable_ordered s h, rfl, rfl⟩
  rw [output_eq_flatten]
  congr 1
  apply List.map_congr_left
  intro e _
  simp [lineOf]

/-- Witness of C11: the store read from a file in descending key order. -/
theorem output_format_and_order_witness :
    output (read [] (some "b=2\nA=1".toList))
      = ((read [] (some "b=2\nA=1".toList)).map
          (fun e => e.1 ++ " = ".toList ++ e.2 ++ "\n".toList)).flatten :=
  (output_format_and_order (read [] (some "b=2\nA=1".toList))
    (Reachable.read [] _ Reachable.empty)).1

/-! ## C12 -/

/-- C12: for every parameter name `P` and `int` default `D`, the generated accessor on
an object whose attached store lacks `P` returns `D` and leaves the store with `P`
set: `exists(P)` is true, the string stored under `P` is the decimal text of `D`, and
every other key has the value it had; with no store attached it returns `D` and
changes nothing. Parameter `PORT` with default 8080 on an empty store gives the entry
`PORT` with value `8080`, which a following `write` emits as `PORT = 8080`. -/
theorem property_cfg_materialises_default (P : Str) (D : Int) (s : Store) (name : Str)
    (habsent : «exists» s P = false) :
    TBD_PROPERTY_CFG P D (ConfigurableObject.mk (some s) name)
      = (Except.ok D, ConfigurableObject.mk (some (set_int s P D)) name)
    ∧ «exists» (set_int s P D) P = true
    ∧ lookup P (set_int s P D) = some (lexical_cast_string D)
    ∧ (∀ k, k ≠ P → lookup k (set_int s P D) = lookup k s)
    ∧ TBD_PROPERTY_CFG P D (ConfigurableObject.mk none name)
      = (Except.ok D, ConfigurableObject.mk none name)
    ∧ TBD_PROPERTY_CFG "PORT".toList 8080 (ConfigurableObject.mk (some []) name)
      = (Except.ok 8080,
          ConfigurableObject.mk (some [("PORT".toList, "8080".toList)]) name)
    ∧ write [("PORT".toList, "8080".toList)] = "PORT = 8080\n".toList := by
  have hl : lookup P (set_int s P D) = some (lexical_cast_string D) := by
    rw [set_int_eq_put]; exact lookup_put_self _ _ _
  refine ⟨?_, ?_, hl, ?_, rfl, rfl, rfl⟩
  · simp [TBD_PROPERTY_CFG, ConfigurableObject.config, habsent]
  · rw [exists_eq_true_iff]; exact ⟨_, hl⟩
  · intro k hk
    rw [set_int_eq_put]
    exact lookup_put_ne _ _ k s hk

/-- Witness of C12: the parameter `PORT` on a store that holds another key. -/
theorem property_cfg_materialises_default_witness :
    lookup "PORT".toList (set_int [("A".toList, "1".toList)] "PORT".toList 8080)
      = some (lexical_cast_string 8080) :=
  (property_cfg_materialises_default "PORT".toList 8080 [("A".toList, "1".toList)] []
    (by decide)).2.2.1

/-! ## C13 -/

/-- C13 (evaluation of the code): with the text `eighty` stored under `PORT`, the store
contains the parameter, and the accessor generated for `PORT` with the default 8080
returns nothing: `lexical_cast<int>` throws `bad_lexical_cast` and the accessor passes
it on, the store unchanged. The same happens on the store read from the file line
`PORT =`, which holds the empty string under `PORT`. -/
theorem property_cfg_throws_on_stored_text :
    «exists» [("PORT".toList, "eighty".toList)] "PORT".toList = true
    ∧ TBD_PROPERTY_CFG "PORT".toList 8080
        (ConfigurableObject.mk (some [("PORT".toList, "eighty".toList)]) "obj".toList)
      = (Except.error Exception.bad_lexical_cast,
          ConfigurableObject.mk (some [("PORT".toList, "eighty".toList)]) "obj".toList)
    ∧ read [] (some "PORT =".toList) = [("PORT".toList, [])]
    ∧ TBD_PROPERTY_CFG "PORT".toList 8080
        (ConfigurableObject.mk (some (read [] (some "PORT =".toList))) "obj".toList)
      = (Except.error Exception.bad_lexical_cast,
          ConfigurableObject.mk (some [("PORT".toList, [])]) "obj".toList) := by
  have hr : read [] (some "PORT =".toList) = [("PORT".toList, [])] := by decide
  refine ⟨by decide, rfl, hr, ?_⟩
  rw [hr]
  rfl

/-! ## C14 -/

/-- C14: for every store, `read` of a file that cannot be opened leaves the store
exactly as it was: the stream that `open` leaves is not good, so the loop
`while (is.good())` is not entered, and nothing in `read` raises an error. -/
theorem read_unopenable_file (s : Store) :
    read s none = s
    ∧ (ifstream_open none).good = false
    ∧ ∀ fuel, readStream fuel (ifstream_open none) s = s := by
  refine ⟨rfl, rfl, ?_⟩
  intro fuel
  exact readStream_not_good fuel [] s

/-! ## C15 -/

/-- C15 as stated fails for `set` and `get`: on the empty store, which satisfies the
invariant, `set("abc", "1")`, `set<int>("abc", 1)`, `get<int>("abc")` and
`get<std::string>("abc")` each leave a store with the key `abc`. -/
theorem keys_upper_counterexample :
    KeysUpper []
    ∧ set [] "abc".toList "1".toList = [("abc".toList, "1".toList)]
    ∧ ¬ KeysUpper (set [] "abc".toList "1".toList)
    ∧ ¬ KeysUpper (set_int [] "abc".toList 1)
    ∧ ¬ KeysUpper (get_int [] "abc".toList).2
    ∧ ¬ KeysUpper (get_string [] "abc".toList).2 := by
  refine ⟨by simp [KeysUpper], by decide, ?_, ?_, ?_, ?_⟩ <;>
  · intro h
    have := h ("abc".toList, _) (List.mem_singleton.mpr rfl)
    revert this
    decide

/-- C15 (amended): the invariant that every key present begins with an upper-case
letter holds of the empty store and is preserved by `read`; `set` (both overloads)
preserves it when the key it is given begins with an upper-case letter, and `get` when
its key does or is already present. -/
theorem keys_upper_invariant :
    KeysUpper []
    ∧ (∀ s file, KeysUpper s → KeysUpper (read s file))
    ∧ (∀ s k v, KeysUpper s → startsUpper k = true → KeysUpper (set s k v))
    ∧ (∀ s k n, KeysUpper s → startsUpper k = true → KeysUpper (set_int s k n))
    ∧ (∀ s k, KeysUpper s → (startsUpper k = true ∨ «exists» s k = true) →
        KeysUpper (get_int s k).2 ∧ KeysUpper (get_string s k).2) := by
  refine ⟨by simp [KeysUpper], keysUpper_read, ?_, ?_, ?_⟩
  · intro s k v hs hk
    rw [set_eq_put]; exact keysUpper_put s k v hs hk
  · intro s k n hs hk
    rw [set_int_eq_put]; exact keysUpper_put s k _ hs hk
  · intro s k hs hk
    exact ⟨keysUpper_mapInsert s k [] hs hk, keysUpper_mapInsert s k [] hs hk⟩

/-- Witness of C15 (amended): reading a file and setting the key `PORT`. -/
theorem keys_upper_invariant_witness :
    KeysUpper (set (read [] (some "a=1\n_k=5".toList)) "PORT".toList "80".toList) :=
  keys_upper_invariant.2.2.1 _ _ _ (keys_upper_invariant.2.1 _ _ keys_upper_invariant.1)
    (by decide)

/-! ## C16 -/

/-- C16 as stated fails when the second `=` directly follows the first: in the valid
line `A==1` the text between the first `=` and the next `=` is empty, but the value
stored under `A` is `1`, the text after the second `=`. -/
theorem second_eq_counterexample :
    "A==1".toList = "A".toList ++ '=' :: ([] ++ '=' :: "1".toList)
    ∧ trim (removeComment []) = []
    ∧ read [] (some "A==1".toList) = [("A".toList, "1".toList)]
    ∧ lookup "A".toList (read [] (some "A==1".toList)) ≠ some (trim (removeComment [])) := by
  decide

/-- C16 (amended): take a line of at most 1023 characters (a line of text: no newline,
no NUL) that passes the key test, `a` being its text before the first `=`. If the first
`=` is followed by a text `b` that is not empty and has no `=`, and then by a second
`=`, the value stored is `b`, comment-stripped and trimmed, whatever text `rest`
follows the second `=`: nothing after the second `=` reaches the store. The line
`A = 1 = 2` stores `1` under `A`. -/
theorem read_second_eq_ends_value (s : Store) (a b rest : Str)
    (hlen : (a ++ '=' :: (b ++ '=' :: rest)).length ≤ 1023)
    (hnl : '\n' ∉ a ++ '=' :: (b ++ '=' :: rest))
    (hnul : Char.ofNat 0 ∉ a ++ '=' :: (b ++ '=' :: rest))
    (ha : '=' ∉ a) (hkey : startsUpper (to_upper (trim a)) = true)
    (hb : '=' ∉ b) (hne : b ≠ []) :
    (∀ file, file = a ++ '=' :: (b ++ '=' :: rest)
          ∨ file = (a ++ '=' :: (b ++ '=' :: rest)) ++ ['\n'] →
        lookup (to_upper (trim a)) (read s (some file)) = some (trim (removeComment b)))
    ∧ read [] (some "A = 1 = 2".toList) = [("A".toList, "1".toList)] := by
  refine ⟨?_, by decide⟩
  have hp := parseLine_second_eq a b rest ha hb hne hnul hkey
  intro file hfile
  rcases hfile with e | e
  · rw [e, read_single s _ hnl, List.take_of_length_le hlen, processLine_eq, hp]
    exact lookup_put_self _ _ _
  · rw [e, read_single_newline s _ hnl, List.take_of_length_le hlen, processLine_eq, hp]
    exact lookup_put_self _ _ _

/-- Witness of C16 (amended): the line `A = 1 = 2`. -/
theorem read_second_eq_ends_value_witness :
    lookup "A".toList (read [] (some "A = 1 = 2".toList)) = some "1".toList :=
  (read_second_eq_ends_value [] "A ".toList " 1 ".toList " 2".toList
    (by decide) (by decide) (by decide) (by decide) (by decide) (by decide)
    (by decide)).1 "A = 1 = 2".toList (Or.inl (by decide))

/-! ## C17 -/

/-- C17 as stated fails: in the file whose first line has 1024 characters `x` and whose
second line is the valid line `A=1`, `read` loads nothing; `exists("A")` is false
afterwards. -/
theorem over_long_line_counterexample :
    fileLines (List.replicate 1024 'x' ++ '\n' :: "A=1\n".toList)
      = [List.replicate 1024 'x', "A=1".toList, []]
    ∧ parseLine "A=1".toList = some ("A".toList, "1".toList)
    ∧ read [] (some (List.replicate 1024 'x' ++ '\n' :: "A=1\n".toList)) = []
    ∧ «exists» (read [] (some (List.replicate 1024 'x' ++ '\n' :: "A=1\n".toList)))
        "A".toList = false := by
  have hx : '\n' ∉ List.replicate 1024 'x' := not_mem_replicate _ _ _ (by decide)
  have hread : read [] (some (List.replicate 1024 'x' ++ '\n' :: "A=1\n".toList)) = [] := by
    rw [read_eq_foldl, linesRead_eq]
    simp only [getline, getlineAux_long 1023 _ _ hx (by rw [List.length_replicate]; decide),
      Bool.false_eq_true, if_false, List.foldl_cons, List.foldl_nil]
    rw [processLine_eq, parseLine_skip (List.replicate 1024 'x') 1023
      (Or.inr (Or.inr (not_mem_replicate _ _ _ (by decide))))]
  refine ⟨?_, by decide, hread, by rw [hread]; decide⟩
  rw [fileLines_newline _ _ hx]
  have : fileLines "A=1\n".toList = ["A=1".toList, []] := by decide
  rw [this]

/-- C17 (amended): an over-long line is truncated and ends the read. For every file,
`read` applies the line rule, in order, to the lines of the file up to and including
the first line that is longer than 1023 characters, using only the first 1023
characters of that line, and to no line after it; when no line is longer than 1023
characters the rule is applied to every line of the file. -/
theorem read_stops_at_over_long_line (s : Store) (f : Str) :
    read s (some f)
      = ((linesUpToLong (fileLines f)).map (List.take 1023)).foldl processLine s
    ∧ ((∀ l ∈ fileLines f, l.length ≤ 1023) →
        read s (some f) = (fileLines f).foldl processLine s)
    ∧ (∀ pre post long, fileLines f = pre ++ long :: post →
        (∀ l ∈ pre, l.length ≤ 1023) → 1023 < long.length →
        read s (some f) = (pre ++ [long.take 1023]).foldl processLine s) := by
  have h1 : read s (some f)
      = ((linesUpToLong (fileLines f)).map (List.take 1023)).foldl processLine s := by
    rw [read_eq_foldl, linesRead_eq_upToLong]
  refine ⟨h1, ?_, ?_⟩
  · intro hshort
    rw [h1, linesUpToLong_short _ hshort, map_take_short _ hshort]
  · intro pre post long hf hpre hlong
    rw [h1, hf, linesUpToLong_long pre post long hpre hlong, List.map_append,
      map_take_short _ hpre]
    rfl

/-- Witness of C17 (amended): a file of three short lines. -/
theorem read_stops_at_over_long_line_witness :
    read [] (some "A=1\nb=2\n".toList) = (fileLines "A=1\nb=2\n".toList).foldl processLine [] :=
  (read_stops_at_over_long_line [] "A=1\nb=2\n".toList).2.1 (by decide)

/-! ## C18 -/

/-- C18: for every store (its entries in ascending key order, as in every `std::map`)
and every file, also one that cannot be opened, reading the file twice in succession
leaves exactly the store that reading it once leaves. -/
theorem read_idempotent (s : Store) (file : Option Str) (hs : Ordered s) :
    read (read s file) file = read s file := by
  cases file with
  | none => rfl
  | some f =>
    apply store_ext
    · exact read_ordered _ _ (read_ordered _ _ hs)
    · exact read_ordered _ _ hs
    · intro k
      rw [read_eq_foldl (read s (some f)), read_eq_foldl s]
      rcases foldl_processLine_key (linesRead f) k with h | ⟨v, h⟩
      · rw [h]
      · rw [h, h]

/-- Witness of C18: a file with a duplicate key read into a store that holds the key. -/
theorem read_idempotent_witness :
    read (read [("A".toList, "0".toList)] (some "b=2\nA=1\nb=3".toList))
        (some "b=2\nA=1\nb=3".toList)
      = read [("A".toList, "0".toList)] (some "b=2\nA=1\nb=3".toList) :=
  read_idempotent [("A".toList, "0".toList)] (some "b=2\nA=1\nb=3".toList)
    (by simp [Ordered])

/-! ## C19 -/

/-- C19: for every store, file and key `k`: a key that exists before `read` exists
after it, and when no line of the file yields the key `k` under the line rule, the
value under `k` after `read` is the value before; this also holds when only the first
1023 characters of every line, which is all that reaches the buffer, are asked not to
yield `k`. A file that cannot be opened changes nothing. -/
theorem read_only_adds_or_overwrites (s : Store) (f k : Str) :
    («exists» s k = true → «exists» (read s (some f)) k = true)
    ∧ ((∀ l ∈ fileLines f, (parseLine l).map Prod.fst ≠ some k) →
        lookup k (read s (some f)) = lookup k s)
    ∧ ((∀ l ∈ fileLines f, (parseLine (l.take 1023)).map Prod.fst ≠ some k) →
        lookup k (read s (some f)) = lookup k s)
    ∧ read s none = s := by
  have htrunc : (∀ l ∈ fileLines f, (parseLine (l.take 1023)).map Prod.fst ≠ some k) →
      lookup k (read s (some f)) = lookup k s := by
    intro h
    rw [read_eq_foldl]
    apply foldl_processLine_frame
    intro r hr
    obtain ⟨l, hl, e⟩ := linesRead_from_fileLines f r hr
    rw [e]
    exact h l hl
  refine ⟨?_, ?_, htrunc, rfl⟩
  · intro h
    rw [read_eq_foldl]
    exact foldl_processLine_exists _ s k h
  · intro h
    apply htrunc
    intro l hl hk
    cases hp : parseLine (l.take 1023) with
    | none => rw [hp] at hk; simp at hk
    | some kv =>
      obtain ⟨k1, v1⟩ := kv
      rw [hp] at hk
      simp only [Option.map_some', Option.some.injEq] at hk
      subst hk
      obtain ⟨w, hw⟩ := parseLine_take l k1 v1 1023 hp
      apply h l hl
      rw [hw]
      rfl

/-- Witness of C19: the key `Z` of the store is not a key of the file. -/
theorem read_only_adds_or_overwrites_witness :
    lookup "Z".toList (read [("Z".toList, "9".toList)] (some "A=1\nb=2".toList))
      = lookup "Z".toList [("Z".toList, "9".toList)] :=
  (read_only_adds_or_overwrites [("Z".toList, "9".toList)] "A=1\nb=2".toList
    "Z".toList).2.1 (by decide)

/-! ## C20 -/

/-- C20: `get<T>(key)` leaves the store that `operator[]` leaves, for `int` and for
`std::string` alike. For a key absent from the store it inserts the key with the empty
string: `exists(key)` is true afterwards, the line `key = ` appears in the
serialisation, and every other key keeps its value; for a key that is present the
store does not change. -/
theorem get_inserts_absent_key (s : Store) (key : Str) :
    (get_string s key).2 = (get_int s key).2
    ∧ («exists» s key = false →
        lookup key (get_int s key).2 = some []
        ∧ «exists» (get_int s key).2 key = true
        ∧ (∃ pre post, output (get_int s key).2
            = pre ++ (key ++ " = ".toList ++ "\n".toList) ++ post)
        ∧ ∀ k, k ≠ key → lookup k (get_int s key).2 = lookup k s)
    ∧ («exists» s key = true → (get_int s key).2 = s) := by
  refine ⟨rfl, ?_, ?_⟩
  · intro habs
    rw [exists_eq_false_iff] at habs
    have hl : lookup key (get_int s key).2 = some [] := by
      simp [get_int, subscript, lookup_mapInsert_self, habs]
    refine ⟨hl, ?_, ?_, ?_⟩
    · rw [exists_eq_true_iff]; exact ⟨_, hl⟩
    · obtain ⟨l1, l2, e⟩ := List.append_of_mem (lookup_mem key [] _ hl)
      refine ⟨output l1, output l2, ?_⟩
      rw [e, output_append, output_cons]
      simp [lineOf]
    · intro k hk
      exact lookup_mapInsert_ne key [] k s hk
  · intro hex
    rw [exists_eq_true_iff] at hex
    obtain ⟨v, hv⟩ := hex
    exact mapInsert_present key [] v s hv

/-- Witness of C20: `get<int>("MISSING")` on a store that holds another key. -/
theorem get_inserts_absent_key_witness :
    lookup "MISSING".toList (get_int [("A".toList, "1".toList)] "MISSING".toList).2 = some [] :=
  ((get_inserts_absent_key [("A".toList, "1".toList)] "MISSING".toList).2.1 (by decide)).1

end Config

end tbd
